import Mathlib

/-!
# TreePIR benchmark harness: a shallow embedding of `cmd/benchmark/benchmark.go`

The Go functions `ParseSize`, `CalculateParameters`, `FormatBytes`, the client-storage
estimate and the online loop of `RunBenchmark`, and `average` are translated into Lean
functions, and the statements of the specification about them are settled as theorems.

Conventions of the embedding.

* Go `int` and `int64` are 64-bit two's-complement integers.  They are modelled by `Int`,
  and every operation that can leave the 64-bit range is followed by `wrap64`.
* Go integer division truncates toward zero: `Int.tdiv`.
* A finite `float64` is modelled by the rational number it denotes.  The IEEE-754
  operations whose result is fixed by the standard (conversion from an integer, product,
  quotient, square root) are modelled by exact rounding to nearest, ties to even
  (`roundF64`, `sqrtF64`).  The library functions `math.Log` and `math.Log2`, whose last
  bits are not fixed by any standard, are parameters (`MathLib`).
* A Go value pair `(v, err)` is modelled by `Int × Option String`; a run that may stop
  with a run-time panic returns a `GoResult`.
-/

namespace TreePIR

/-! ## Machine integers -/

/-- Two's-complement wrap-around of an integer to the 64-bit signed range. -/
def wrap64 (x : Int) : Int := (x + 2 ^ 63) % 2 ^ 64 - 2 ^ 63

/-- Membership in the range of a Go `int64` (and of `int` on a 64-bit platform). -/
def inInt64 (x : Int) : Prop := -(2 ^ 63) ≤ x ∧ x < 2 ^ 63

instance (x : Int) : Decidable (inInt64 x) := by unfold inInt64; infer_instance

/-! ## Floating point: finite `float64` values as rationals -/

/-- Nearest integer, ties to the even neighbour. -/
def roundHalfEven (x : ℚ) : Int :=
  let f : Int := ⌊x⌋
  if x - f < 1 / 2 then f
  else if 1 / 2 < x - f then f + 1
  else if f % 2 = 0 then f else f + 1

/-- Rounding of a real (here rational) value to the nearest `float64`, ties to even:
53 significant bits, least normal exponent -1022 (below it the spacing stays `2^-1074`).
The exponent is not bounded above: a result of `2^1024` or more stands for an overflow
to infinity, which the callers treat where it matters. -/
def roundF64 (q : ℚ) : ℚ :=
  if q = 0 then 0
  else
    let e : Int := max (Int.log 2 |q|) (-1022)
    let ulp : ℚ := (2 : ℚ) ^ (e - 52)
    (roundHalfEven (q / ulp) : ℚ) * ulp

/-- Conversion `float64(n)` of an integer. -/
def float64OfInt (n : Int) : ℚ := roundF64 (n : ℚ)

/-- Product `a * b` of two `float64` values. -/
def mulF64 (a b : ℚ) : ℚ := roundF64 (a * b)

/-- Quotient `a / b` of two `float64` values (`b` non-zero). -/
def divF64 (a b : ℚ) : ℚ := roundF64 (a / b)

/-- Sum `a + b` of two `float64` values. -/
def addF64 (a b : ℚ) : ℚ := roundF64 (a + b)

/-- Difference `a - b` of two `float64` values. -/
def subF64 (a b : ℚ) : ℚ := roundF64 (a - b)

/-- Correctly rounded `math.Sqrt(x)` for `x ≥ 0` (the IEEE-754 square root; never
subnormal).  With `2^h ≤ √x < 2^(h+1)` the result is a multiple `r * 2^(h-52)`, where
`r` is the integer nearest to `√x / 2^(h-52)`, found from the integer square root.
The square root of a negative number is NaN; the callers treat that case themselves. -/
def sqrtF64 (x : ℚ) : ℚ :=
  if x ≤ 0 then 0
  else
    let h : Int := Int.log 2 x / 2
    let ulp : ℚ := (2 : ℚ) ^ (h - 52)
    let y : ℚ := x / (ulp * ulp)
    let m : Nat := Nat.sqrt ⌊y⌋₊
    let mid : ℚ := ((m : ℚ) + 1 / 2) * ((m : ℚ) + 1 / 2)
    let r : Nat := if y < mid then m else if mid < y then m + 1 else if m % 2 = 0 then m else m + 1
    (r : ℚ) * ulp

/-- What the platform returns for a conversion of a `float64` to `int64` whose result
does not fit: the Go specification leaves these values to the implementation. -/
structure Platform where
  /-- Result for an operand of `2^63` or more, or `+Inf`. -/
  convPosOverflow : Int
  /-- Result for an operand below `-2^63`, or `-Inf`. -/
  convNegOverflow : Int
  /-- Result for a NaN operand. -/
  convNaN : Int

/-- Conversion `int64(x)` / `int(x)` of a finite `float64`: truncation toward zero when
the result fits, otherwise the value the platform produces. -/
def truncToInt64 (pf : Platform) (x : ℚ) : Int :=
  let t : Int := if 0 ≤ x then ⌊x⌋ else ⌈x⌉
  if inInt64 t then t else if 0 ≤ x then pf.convPosOverflow else pf.convNegOverflow

/-- The functions of package `math` whose results are not fixed by IEEE-754. -/
structure MathLib where
  /-- `math.Log` on positive finite arguments. -/
  Log : ℚ → ℚ
  /-- `math.Log2` on positive finite arguments. -/
  Log2 : ℚ → ℚ

/-! ## Strings

A Go string is modelled by the list of its Unicode code points (`List Char`); ill-formed
UTF-8 is outside the model. -/

/-- `unicode.IsSpace`: the white space that `strings.TrimSpace` removes. -/
def isSpace (c : Char) : Bool :=
  let n := c.toNat
  n == 0x09 || n == 0x0A || n == 0x0B || n == 0x0C || n == 0x0D || n == 0x20 ||
  n == 0x85 || n == 0xA0 || n == 0x1680 || (0x2000 ≤ n && n ≤ 0x200A) ||
  n == 0x2028 || n == 0x2029 || n == 0x202F || n == 0x205F || n == 0x3000

/-- `unicode.ToUpper` on one code point: ASCII is handled inline (as in Go), every other
code point goes through the Unicode case table `up`. -/
def toUpperRune (up : Char → Char) (c : Char) : Char :=
  if c.toNat ≤ 0x7F then
    if 'a'.toNat ≤ c.toNat ∧ c.toNat ≤ 'z'.toNat then Char.ofNat (c.toNat - 32) else c
  else up c

/-- `strings.ToUpper`. -/
def ToUpper (up : Char → Char) (s : List Char) : List Char := s.map (toUpperRune up)

/-- `strings.TrimSpace`. -/
def TrimSpace (s : List Char) : List Char := (s.dropWhile isSpace).rdropWhile isSpace

/-- The regexp class `\d` (ASCII digits). -/
def isDigit (c : Char) : Bool := '0'.toNat ≤ c.toNat && c.toNat ≤ '9'.toNat

/-- The regexp class `\s` of Go (RE2): tab, newline, form feed, carriage return, space. -/
def isReSpace (c : Char) : Bool :=
  c == '\t' || c == '\n' || c == '\x0c' || c == '\r' || c == ' '

/-- The tail `[KMGT]?B?$` of the pattern: does the whole of `u` match it? -/
def matchUnit (u : List Char) : Bool :=
  let u1 : List Char :=
    match u with
    | c :: t => if c == 'K' || c == 'M' || c == 'G' || c == 'T' then t else u
    | [] => u
  let u2 : List Char :=
    match u1 with
    | c :: t => if c == 'B' then t else u1
    | [] => u1
  u2.isEmpty

/-- `regexp.MustCompile("^(\d+(?:\.\d+)?)\s*([KMGT]?B?)$").FindStringSubmatch(s)`:
`none` when the string does not match, otherwise the two captured groups.  Every
repetition of the pattern is followed by something that cannot start with a character
of the repeated class, so the greedy choice is the only one that can succeed. -/
def FindStringSubmatch (s : List Char) : Option (List Char × List Char) :=
  let ds := s.takeWhile isDigit
  let r1 := s.dropWhile isDigit
  if ds.isEmpty then none
  else
    let numRest : List Char × List Char :=
      match r1 with
      | c :: t =>
        if c == '.' && !(t.takeWhile isDigit).isEmpty then
          (ds ++ c :: t.takeWhile isDigit, t.dropWhile isDigit)
        else (ds, r1)
      | [] => (ds, r1)
    let u := numRest.2.dropWhile isReSpace
    if matchUnit u then some (numRest.1, u) else none

/-- Value of a decimal digit. -/
def digitVal (c : Char) : Nat := c.toNat - '0'.toNat

/-- Value of a string of decimal digits. -/
def decimalNat (ds : List Char) : Nat := ds.foldl (fun acc c => 10 * acc + digitVal c) 0

/-- `strconv.ParseFloat(s, 64)` on the decimal syntax `digits` or `digits.digits` (the
only strings the first group of the pattern can hold): the nearest `float64`, or `none`
for the range error of a value that rounds to infinity.  Other strings give `none`
here; Go accepts further syntaxes (exponents, hexadecimal, `inf`) that the pattern
never lets through. -/
def ParseFloat (s : List Char) : Option ℚ :=
  let ip := s.takeWhile isDigit
  let rest := s.dropWhile isDigit
  let fp : Option (List Char) :=
    match rest with
    | [] => some []
    | c :: f => if c == '.' && !f.isEmpty && f.all isDigit then some f else none
  match fp with
  | none => none
  | some f =>
    if ip.isEmpty then none
    else
      let r : ℚ := roundF64 ((decimalNat (ip ++ f) : ℚ) / (10 : ℚ) ^ f.length)
      if (2 : ℚ) ^ (1024 : Nat) ≤ r then none else some r

/-- The `switch unit` of `ParseSize`: the multiplier, or `none` in the `default` case. -/
def unitMultiplier (unit : List Char) : Option Int :=
  if unit = [] ∨ unit = ['B'] then some 1
  else if unit = ['K'] ∨ unit = ['K', 'B'] then some 1024
  else if unit = ['M'] ∨ unit = ['M', 'B'] then some (1024 * 1024)
  else if unit = ['G'] ∨ unit = ['G', 'B'] then some (1024 * 1024 * 1024)
  else if unit = ['T'] ∨ unit = ['T', 'B'] then some (1024 * 1024 * 1024 * 1024)
  else none

/-! ## `ParseSize` (benchmark.go, lines 23-61) -/

/-- `ParseSize(sizeStr)` returns `(bytes, err)`.  `up` is the Unicode upper-case table
for non-ASCII code points, `pf` fixes the implementation-defined results of out-of-range
conversions to `int64`. -/
def ParseSize (up : Char → Char) (pf : Platform) (sizeStr : List Char) : Int × Option String :=
  let sizeStr := TrimSpace (ToUpper up sizeStr)
  match FindStringSubmatch sizeStr with
  | none =>
    (0, some ("invalid size format: " ++ String.mk sizeStr ++
      " (use formats like 1GB, 500MB, 100KB)"))
  | some (numStr, unit) =>
    match ParseFloat numStr with
    | none => (0, some ("invalid number: " ++ String.mk numStr))
    | some num =>
      match unitMultiplier unit with
      | none => (0, some ("unknown unit: " ++ String.mk unit))
      | some multiplier => (truncToInt64 pf (mulF64 num (float64OfInt multiplier)), none)

/-! ## `CalculateParameters` (benchmark.go, lines 64-89) -/

/-- `CalculateParameters(dbSize, rowLenOverride)` returns `(numRows, rowLen)`. -/
def CalculateParameters (dbSize : Int) (rowLenOverride : Int) : Int × Int :=
  let rowLen : Int :=
    if rowLenOverride > 0 then rowLenOverride
    else if dbSize < 10 * 1024 * 1024 then 16
    else if dbSize < 100 * 1024 * 1024 then 32
    else if dbSize < 1024 * 1024 * 1024 then 64
    else 256
  let numRows : Int := Int.tdiv dbSize rowLen
  let numRows : Int := if numRows < 1 then 1 else numRows
  (numRows, rowLen)

/-! ## Results of Go calls -/

/-- Outcome of a Go function returning `(value, error)` that may also stop with a
run-time panic. -/
inductive GoResult (α : Type) where
  /-- Normal return of a value with a nil error. -/
  | ok (value : α)
  /-- Return of a non-nil error (and no value). -/
  | err (msg : String)
  /-- Run-time panic: the function does not return. -/
  | panic (msg : String)

/-! ## `FormatBytes` (benchmark.go, lines 120-132) -/

/-- The verb `%.2f` of `fmt.Sprintf` on a finite `float64`: the decimal expansion of the
exact value, rounded to two fractional digits (ties to even). -/
def fmtFloat2 (x : ℚ) : String :=
  let h : Nat := (roundHalfEven (|x| * 100)).toNat
  let body : String :=
    toString (h / 100) ++ "." ++ toString (h % 100 / 10) ++ toString (h % 10)
  if x < 0 then "-" ++ body else body

/-- The loop `for n := bytes / unit; n >= unit; n /= unit { div *= unit; exp++ }`,
started in the state `(n, div, exp)`; it returns the final `(div, exp)`. -/
def formatLoop (n div : Int) (exp : Nat) : Int × Nat :=
  if 1024 ≤ n then formatLoop (Int.tdiv n 1024) (wrap64 (div * 1024)) (exp + 1)
  else (div, exp)
termination_by n.toNat
decreasing_by
  have h1 : Int.tdiv n 1024 = n / 1024 := Int.tdiv_eq_ediv (by omega) (by omega)
  rw [h1]
  omega

/-- The table `units := []string{"KB", "MB", "GB", "TB"}`. -/
def units : List String := ["KB", "MB", "GB", "TB"]

/-- `FormatBytes(bytes)`; indexing `units` out of range is a run-time panic. -/
def FormatBytes (bytes : Int) : GoResult String :=
  if bytes < 1024 then .ok (toString bytes ++ " B")
  else
    let de := formatLoop (Int.tdiv bytes 1024) 1024 0
    match units[de.2]? with
    | none => .panic "index out of range"
    | some u => .ok (fmtFloat2 (divF64 (float64OfInt bytes) (float64OfInt de.1)) ++ " " ++ u)

/-! ## `BenchmarkResult` (benchmark.go, lines 92-117) -/

/-- The `Config` group of `BenchmarkResult`. -/
structure ConfigRecord where
  DbSize : Int
  NumRows : Int
  RowLen : Int
  SetSize : Int
  PIRType : String

/-- The `Offline` group of `BenchmarkResult`. -/
structure OfflineRecord where
  ServerTimeUs : Int
  ClientTimeUs : Int
  CommBytes : Int
  StorageBytes : Int

/-- The `Online` group of `BenchmarkResult` (`StdDevUs` is a `float64`). -/
structure OnlineRecord where
  AvgQueryGenUs : Int
  AvgServerTimeUs : Int
  AvgReconstructUs : Int
  AvgTotalUs : Int
  AvgOnlineBytes : Int
  NumQueries : Int
  MinTimeUs : Int
  MaxTimeUs : Int
  StdDevUs : ℚ

/-- The record `BenchmarkResult`. -/
structure BenchmarkResult where
  Config : ConfigRecord
  Offline : OfflineRecord
  Online : OnlineRecord

/-! ## `RunBenchmark` (benchmark.go, lines 146-275)

The PIR driver, the client and the clock are external.  What the harness observes of them
is collected in a `Gateway`: whether the driver can be created and configured, the
metrics reported by the offline benchmark, and, for the `i`-th online trial, the outcome
of `client.Read` together with the ground-truth row and the measured counters.  The
gateway calls guarded by `assert.NilError` and the initialisation of the client in the
offline benchmark are taken to succeed. -/

/-- What the `i`-th trial of the online loop observes. -/
structure QueryOutcome where
  /-- The error returned by `client.Read(queryIdx)`, if any. -/
  readErr : Option String
  /-- The row returned by `client.Read(queryIdx)`. -/
  row : List Nat
  /-- The field `Value` of the ground-truth row fetched by `dr.GetRow`. -/
  value : List Nat
  /-- `queryTime.Microseconds()`. -/
  queryTimeUs : Int
  /-- `serverOnlineTime.Microseconds()`. -/
  serverTimeUs : Int
  /-- The byte count read by `dr.GetOnlineBytes`. -/
  onlineBytes : Int

/-- The external collaborators of one run. -/
structure Gateway where
  /-- The error of `driver.NewServerDriver()`, if any. -/
  newDriverErr : Option String
  /-- The error of `dr.Configure(config, &none)`, if any. -/
  configureErr : Option String
  /-- The metric `hint-us/op` of the offline benchmark. -/
  hintUsPerOp : ℚ
  /-- The metric `init-us/op` of the offline benchmark. -/
  initUsPerOp : ℚ
  /-- The metric `hint-bytes/op` of the offline benchmark. -/
  hintBytesPerOp : ℚ
  /-- The outcome of the `i`-th online trial. -/
  query : Nat → QueryOutcome

/-- The client storage estimate (lines 203-212): the local `storageBytes`.  A zero
`setSize` makes the division panic.  `math.Sqrt` of a negative number is NaN, and
`math.Log2` of zero or of a negative number is `-Inf` or NaN. -/
def clientStorageBytes (pf : Platform) (ml : MathLib) (numRows rowLen : Int) : GoResult Int :=
  let setSize : Int :=
    if numRows < 0 then pf.convNaN else truncToInt64 pf (sqrtF64 (float64OfInt numRows))
  let numHintsMultiplier : Int := truncToInt64 pf (mulF64 128 (ml.Log 2))
  if setSize = 0 then .panic "integer divide by zero"
  else
    let nHints : Int := wrap64 (Int.tdiv (wrap64 (numHintsMultiplier * numRows)) setSize)
    let bitsPerKey : Int :=
      if nHints < 0 then pf.convNaN
      else if nHints = 0 then pf.convNegOverflow
      else truncToInt64 pf (ml.Log2 (float64OfInt nHints))
    let fixedBytes : Int := wrap64 (nHints * rowLen)
    let storageBytes : Int :=
      wrap64 (Int.tdiv (wrap64 (wrap64 (bitsPerKey * numRows) + 7)) 8 + fixedBytes)
    .ok storageBytes

/-- The variables the online loop accumulates. -/
structure LoopState where
  queryTimes : List Int
  serverTimes : List Int
  totalOnlineBytes : Int

/-- The loop `for i := 0; i < numQueries; i++ { ... }` (lines 228-262), with `remaining`
iterations to go from index `i`.  `randSource.Intn(numRows)` panics unless `numRows` is
positive; indexing an empty row panics. -/
def onlineLoop (query : Nat → QueryOutcome) (numRows : Int) :
    Nat → Nat → LoopState → GoResult LoopState
  | 0, _, st => .ok st
  | remaining + 1, i, st =>
    if numRows ≤ 0 then .panic "invalid argument to Intn"
    else
      let q := query i
      match q.readErr with
      | some e => .err ("query " ++ toString i ++ " failed: " ++ e)
      | none =>
        match q.row, q.value with
        | r0 :: _, v0 :: _ =>
          if r0 ≠ v0 then .err ("query " ++ toString i ++ " returned wrong value")
          else
            onlineLoop query numRows remaining (i + 1)
              { queryTimes := st.queryTimes ++ [q.queryTimeUs]
                serverTimes := st.serverTimes ++ [q.serverTimeUs]
                totalOnlineBytes := wrap64 (st.totalOnlineBytes + q.onlineBytes) }
        | _, _ => .panic "index out of range"

/-! ## `average` (benchmark.go, lines 278-287) -/

/-- The accumulation loop `for _, v := range values { sum += v }` on `int64`. -/
def sumLoop (sum : Int) : List Int → Int
  | [] => sum
  | v :: rest => sumLoop (wrap64 (sum + v)) rest

/-- `average(values)`: 0 on the empty slice, otherwise `sum / int64(len(values))`. -/
def average (values : List Int) : Int :=
  if values.length = 0 then 0
  else Int.tdiv (sumLoop 0 values) (values.length : Int)

/-! ## `min`, `max`, `stddev` (benchmark.go, lines 289-327) -/

/-- `min(values)`: 0 on the empty slice, otherwise the least element. -/
def min (values : List Int) : Int :=
  match values with
  | [] => 0
  | v0 :: _ => values.foldl (fun minVal v => if v < minVal then v else minVal) v0

/-- `max(values)`: 0 on the empty slice, otherwise the greatest element. -/
def max (values : List Int) : Int :=
  match values with
  | [] => 0
  | v0 :: _ => values.foldl (fun maxVal v => if v > maxVal then v else maxVal) v0

/-- `stddev(values)`: the population standard deviation around the integer mean,
computed in `float64`. -/
def stddev (values : List Int) : ℚ :=
  if values.length = 0 then 0
  else
    let avg : ℚ := float64OfInt (average values)
    let variance : ℚ := values.foldl
      (fun variance v =>
        let diff : ℚ := subF64 (float64OfInt v) avg
        addF64 variance (mulF64 diff diff)) 0
    sqrtF64 (divF64 variance (float64OfInt (values.length : Int)))

/-! ## `RunBenchmark`, continued: the online phase and the whole run -/

/-- The online phase (lines 220-274): the loop, then the statistics.  The division
`totalOnlineBytes / numQueries` panics when `numQueries` is zero. -/
def onlinePhase (query : Nat → QueryOutcome) (numRows numQueries : Int) :
    GoResult OnlineRecord :=
  match onlineLoop query numRows numQueries.toNat 0
      { queryTimes := [], serverTimes := [], totalOnlineBytes := 0 } with
  | .err msg => .err msg
  | .panic msg => .panic msg
  | .ok st =>
    if numQueries = 0 then .panic "integer divide by zero"
    else
      .ok { NumQueries := numQueries
            AvgTotalUs := average st.queryTimes
            AvgServerTimeUs := average st.serverTimes
            AvgQueryGenUs := wrap64 (average st.queryTimes - average st.serverTimes)
            AvgReconstructUs := 0
            MinTimeUs := min st.queryTimes
            MaxTimeUs := max st.queryTimes
            StdDevUs := stddev st.queryTimes
            AvgOnlineBytes := wrap64 (Int.tdiv st.totalOnlineBytes numQueries) }

/-- `RunBenchmark(numRows, rowLen, numQueries, pirType)`; `pirType` is given by its name
`pirType.String()`. -/
def RunBenchmark (pf : Platform) (ml : MathLib) (gw : Gateway)
    (numRows rowLen numQueries : Int) (pirType : String) : GoResult BenchmarkResult :=
  match gw.newDriverErr with
  | some e => .err ("failed to create driver: " ++ e)
  | none =>
    match gw.configureErr with
    | some e => .err ("failed to configure driver: " ++ e)
    | none =>
      match clientStorageBytes pf ml numRows rowLen with
      | .err msg => .err msg
      | .panic msg => .panic msg
      | .ok storageBytes =>
        match onlinePhase gw.query numRows numQueries with
        | .err msg => .err msg
        | .panic msg => .panic msg
        | .ok online =>
          .ok { Config :=
                  { NumRows := numRows
                    RowLen := rowLen
                    DbSize := wrap64 (numRows * rowLen)
                    SetSize :=
                      if numRows < 0 then pf.convNaN
                      else truncToInt64 pf (sqrtF64 (float64OfInt numRows))
                    PIRType := pirType }
                Offline :=
                  { ServerTimeUs := truncToInt64 pf gw.hintUsPerOp
                    ClientTimeUs := truncToInt64 pf gw.initUsPerOp
                    CommBytes := truncToInt64 pf gw.hintBytesPerOp
                    StorageBytes := truncToInt64 pf (float64OfInt storageBytes) }
                Online := online }

/-! ## The size check of `main` (benchmark.go, lines 439-457) -/

/-- The constant `maxInMemorySize = 8 * 1024 * 1024 * 1024` of `main`. -/
def maxInMemorySize : Int := 8 * 1024 * 1024 * 1024

/-- The value `actualSize := int64(numRows) * int64(rowLen)` of `main`, for the
parameters that `CalculateParameters(dbSize, rowLenOverride)` returns. -/
def actualSize (dbSize rowLenOverride : Int) : Int :=
  let p := CalculateParameters dbSize rowLenOverride
  wrap64 (p.1 * p.2)

/-- The call `FormatBytes(int(actualSize))` that `main` evaluates when
`actualSize > maxInMemorySize`: as an argument of `log.Fatalf` without `--force`, as an
argument of the warning with it.  `none` when the size is within the limit and the call
is not made. -/
def sizeLimitMessage (dbSize rowLenOverride : Int) : Option (GoResult String) :=
  if actualSize dbSize rowLenOverride > maxInMemorySize then
    some (FormatBytes (actualSize dbSize rowLenOverride))
  else none

/-! ## Definitions used to state the specification -/

/-- The spellings of the size units, by tier: tier 0 is no unit or `B`, tier 1 is `K`
or `KB`, and so on up to tier 4 (`T`, `TB`), each letter in either case. -/
def unitSpellings : Nat → List (List Char)
  | 0 => [[], ['B'], ['b']]
  | 1 => [['K'], ['k'], ['K', 'B'], ['K', 'b'], ['k', 'B'], ['k', 'b']]
  | 2 => [['M'], ['m'], ['M', 'B'], ['M', 'b'], ['m', 'B'], ['m', 'b']]
  | 3 => [['G'], ['g'], ['G', 'B'], ['G', 'b'], ['g', 'B'], ['g', 'b']]
  | 4 => [['T'], ['t'], ['T', 'B'], ['T', 'b'], ['t', 'B'], ['t', 'b']]
  | _ => []

/-- What the pattern and the `switch` of `ParseSize` need of an upper-cased unit of
tier `t`. -/
def unitOk (t : Nat) (U : List Char) : Prop :=
  matchUnit U = true ∧
  (∀ c ∈ U.head?, isReSpace c = false ∧ isDigit c = false ∧ c ≠ '.') ∧
  (∀ c ∈ U.getLast?, isSpace c = false) ∧
  unitMultiplier U = some ((1024 : Int) ^ t)

instance (t : Nat) (U : List Char) : Decidable (unitOk t U) := by
  unfold unitOk; infer_instance

/-- The form the specification gives for a size, on the upper-cased and trimmed string:
digits, an optional point followed by digits, optional white space (of the pattern), an
optional one of K, M, G, T and an optional B. -/
def sizeForm (s : List Char) : Prop :=
  ∃ ds fr ws k b : List Char, s = ds ++ fr ++ ws ++ k ++ b ∧
    ds ≠ [] ∧ (∀ c ∈ ds, isDigit c = true) ∧
    (fr = [] ∨ ∃ fs : List Char, fs ≠ [] ∧ (∀ c ∈ fs, isDigit c = true) ∧ fr = '.' :: fs) ∧
    (∀ c ∈ ws, isReSpace c = true) ∧
    (k = [] ∨ k = ['K'] ∨ k = ['M'] ∨ k = ['G'] ∨ k = ['T']) ∧ (b = [] ∨ b = ['B'])

/-- The `k`-th unit of KB, MB, GB, TB (counting from 1). -/
def unitOfTier : Nat → String
  | 1 => "KB"
  | 2 => "MB"
  | 3 => "GB"
  | 4 => "TB"
  | _ => ""

/-- A trial that makes the run fail: the read fails, or the first elements of the
returned row and of the ground-truth value differ. -/
def failingTrial (q : QueryOutcome) : Prop :=
  q.readErr ≠ none ∨ q.row.head? ≠ q.value.head?

/-- A trial whose read succeeds returns a non-empty row, and the ground-truth value is
non-empty: both have a first element. -/
def hasFirstElements (q : QueryOutcome) : Prop :=
  q.readErr = none → q.row ≠ [] ∧ q.value ≠ []

/-- The set size in the words of the specification: `floor(√numRows)`. -/
def specSetSize (numRows : Nat) : Nat := Nat.sqrt numRows

/-- The number of hints in the words of the specification:
`floor(88 * numRows / setSize)`. -/
def specNHints (numRows : Nat) : Nat := 88 * numRows / specSetSize numRows

/-- The bits per key in the words of the specification: `floor(log2(nHints))`. -/
def specBitsPerKey (numRows : Nat) : Nat := Nat.log 2 (specNHints numRows)

/-- The client storage estimate in the words of the specification:
`ceil(bitsPerKey * numRows / 8) + nHints * rowLen`. -/
def specStorageBytes (numRows rowLen : Nat) : Int :=
  ⌈((specBitsPerKey numRows * numRows : Nat) : ℚ) / 8⌉ +
    ((specNHints numRows * rowLen : Nat) : Int)

/-! ## Concrete surroundings for the examples -/

/-- The conversions of an amd64 machine: every out-of-range conversion gives the least
`int64`. -/
def amd64 : Platform :=
  { convPosOverflow := -(2 ^ 63), convNegOverflow := -(2 ^ 63), convNaN := -(2 ^ 63) }

/-- A `math` library for the examples: `Log` returns the `float64` nearest to `ln 2`
(0.6931471805599453) at 2, and `Log2` returns the exact integer part of the binary
logarithm. -/
def mathExact : MathLib :=
  { Log := fun x => if x = 2 then 6243314768165359 / 9007199254740992 else 0
    Log2 := fun x => (Nat.log 2 ⌊x⌋₊ : ℚ) }

/-- One trial of a gateway that returns the correct row. -/
def correctTrial : QueryOutcome :=
  { readErr := none, row := [7, 1], value := [7, 1],
    queryTimeUs := 120, serverTimeUs := 80, onlineBytes := 96 }

/-- A gateway stub that always returns the correct row. -/
def stubCorrect : Nat → QueryOutcome := fun _ => correctTrial

/-- A gateway stub that returns one mismatched row, in the trial of index 1. -/
def stubOneMismatch : Nat → QueryOutcome := fun i =>
  if i = 1 then { correctTrial with row := [8, 1] } else correctTrial

/-- A gateway whose driver starts and that always returns the correct row. -/
def gatewayCorrect : Gateway :=
  { newDriverErr := none, configureErr := none,
    hintUsPerOp := 1500, initUsPerOp := 250, hintBytesPerOp := 4096,
    query := stubCorrect }

/-! # Theorems -/

/-- Wrapping leaves an integer of the 64-bit range unchanged. -/
theorem wrap64_of_inInt64 {x : Int} (h : inInt64 x) : wrap64 x = x := by
  unfold inInt64 at h
  unfold wrap64
  have h1 : (x + 2 ^ 63) % 2 ^ 64 = x + 2 ^ 63 := by
    apply Int.emod_eq_of_lt <;> omega
  omega

/-- Wrapping an intermediate sum does not change the wrapped sum. -/
theorem wrap64_add_wrap64 (a b : Int) : wrap64 (wrap64 a + b) = wrap64 (a + b) := by
  unfold wrap64
  have : (((a + 2 ^ 63) % 2 ^ 64 - 2 ^ 63 + b + 2 ^ 63) % 2 ^ 64 : Int) = (a + b + 2 ^ 63) % 2 ^ 64 := by
    omega
  omega

/-- The accumulation loop computes the wrapped exact sum. -/
theorem sumLoop_eq (vs : List Int) : ∀ s : Int, sumLoop (wrap64 s) vs = wrap64 (s + vs.sum) := by
  induction vs with
  | nil => intro s; simp [sumLoop]
  | cons v rest ih =>
    intro s
    simp only [sumLoop, List.sum_cons]
    rw [wrap64_add_wrap64, ih, add_assoc]

/-- An integer is its own nearest integer. -/
theorem roundHalfEven_intCast (k : Int) : roundHalfEven (k : ℚ) = k := by
  simp [roundHalfEven]

/-- A value `m * 2^z` with a significand below `2^53` and an exponent in range is a
`float64`: rounding leaves it unchanged. -/
theorem roundF64_exact (m z : Int) (hm : |m| < 2 ^ 53) (hz : -1074 ≤ z) :
    roundF64 ((m : ℚ) * (2 : ℚ) ^ z) = (m : ℚ) * (2 : ℚ) ^ z := by
  by_cases hm0 : m = 0
  · simp [hm0, roundF64]
  have h2pos : (0 : ℚ) < (2 : ℚ) ^ z := by positivity
  have hq0 : (m : ℚ) * (2 : ℚ) ^ z ≠ 0 := by
    have : (m : ℚ) ≠ 0 := by exact_mod_cast hm0
    positivity
  unfold roundF64
  rw [if_neg hq0]
  simp only
  set e : Int := Max.max (Int.log 2 |(m : ℚ) * (2 : ℚ) ^ z|) (-1022) with he
  have habs : |(m : ℚ) * (2 : ℚ) ^ z| < (2 : ℚ) ^ (53 + z) := by
    rw [abs_mul, abs_of_pos h2pos, zpow_add₀ (by norm_num : (2 : ℚ) ≠ 0)]
    have : |(m : ℚ)| < (2 : ℚ) ^ (53 : ℤ) := by
      have h1 : ((|m| : Int) : ℚ) < ((2 ^ 53 : Int) : ℚ) := by exact_mod_cast hm
      rw [Int.cast_abs] at h1
      calc |(m : ℚ)| < ((2 ^ 53 : Int) : ℚ) := h1
        _ = (2 : ℚ) ^ (53 : ℤ) := by norm_num
    exact mul_lt_mul_of_pos_right this h2pos
  have hlog : Int.log 2 |(m : ℚ) * (2 : ℚ) ^ z| < 53 + z := by
    have hpos : 0 < |(m : ℚ) * (2 : ℚ) ^ z| := abs_pos.mpr hq0
    have := (Int.lt_zpow_iff_log_lt (b := 2) (by norm_num) hpos (x := 53 + z)).mp (by exact_mod_cast habs)
    exact this
  have hele : e ≤ 52 + z := by
    rw [he]; apply max_le <;> omega
  obtain ⟨d, hd⟩ : ∃ d : Nat, (d : Int) = z - (e - 52) := ⟨(z - (e - 52)).toNat, by omega⟩
  have hpow : (2 : ℚ) ^ z = (2 : ℚ) ^ d * (2 : ℚ) ^ (e - 52) := by
    rw [← zpow_natCast, ← zpow_add₀ (by norm_num : (2 : ℚ) ≠ 0)]
    congr 1
    omega
  have hne : (2 : ℚ) ^ (e - 52) ≠ 0 := by positivity
  have hdiv : (m : ℚ) * (2 : ℚ) ^ z / (2 : ℚ) ^ (e - 52) = ((m * 2 ^ d : Int) : ℚ) := by
    rw [hpow]
    field_simp
    ring
  rw [hdiv, roundHalfEven_intCast, hpow]
  push_cast
  ring

/-- An integer below `2^53` in absolute value is a `float64`. -/
theorem roundF64_intCast (m : Int) (hm : |m| < 2 ^ 53) : roundF64 (m : ℚ) = (m : ℚ) := by
  have := roundF64_exact m 0 hm (by norm_num)
  simpa using this

/-- The conversion to `int64` of an integer-valued `float64` in range is that integer. -/
theorem truncToInt64_intCast (pf : Platform) (m : Int) (hm : inInt64 m) :
    truncToInt64 pf (m : ℚ) = m := by
  unfold truncToInt64
  by_cases h : (0 : ℚ) ≤ (m : ℚ)
  · simp [h, hm]
  · simp [h, hm]

/-- The character of a decimal digit is a digit with that value. -/
theorem digitChar_spec (k : Nat) (hk : k < 10) :
    digitVal (Nat.digitChar k) = k ∧ isDigit (Nat.digitChar k) = true := by
  interval_cases k <;> decide

/-- Appending a digit multiplies the value by ten and adds the digit. -/
theorem decimalNat_append_singleton (l : List Char) (d : Char) :
    decimalNat (l ++ [d]) = 10 * decimalNat l + digitVal d := by
  simp [decimalNat, List.foldl_append]

/-- The digits produced by `Nat.toDigitsCore` in base ten are decimal digits with the value
of the number. -/
theorem toDigitsCore_spec : ∀ (fuel n : Nat) (ds : List Char), n < fuel →
    ∃ l : List Char, Nat.toDigitsCore 10 fuel n ds = l ++ ds ∧ l ≠ [] ∧
      (∀ c ∈ l, isDigit c = true) ∧ decimalNat l = n := by
  intro fuel
  induction fuel with
  | zero => intro n ds h; omega
  | succ f ih =>
    intro n ds h
    have hd := digitChar_spec (n % 10) (Nat.mod_lt _ (by norm_num))
    unfold Nat.toDigitsCore
    simp only
    by_cases h0 : n / 10 = 0
    · rw [if_pos h0]
      refine ⟨[Nat.digitChar (n % 10)], rfl, by simp, ?_, ?_⟩
      · intro c hc
        simp only [List.mem_singleton] at hc
        rw [hc]; exact hd.2
      · have : decimalNat [Nat.digitChar (n % 10)] = digitVal (Nat.digitChar (n % 10)) := by
          simp [decimalNat]
        rw [this, hd.1]
        omega
    · rw [if_neg h0]
      have hlt : n / 10 < f := by omega
      obtain ⟨l, hl, _, hall, hval⟩ := ih (n / 10) (Nat.digitChar (n % 10) :: ds) hlt
      refine ⟨l ++ [Nat.digitChar (n % 10)], by simp [hl], by simp, ?_, ?_⟩
      · intro c hc
        rcases List.mem_append.mp hc with hc | hc
        · exact hall c hc
        · simp only [List.mem_singleton] at hc
          rw [hc]; exact hd.2
      · rw [decimalNat_append_singleton, hval, hd.1]
        omega

/-- The decimal numeral of `n` is a non-empty string of digits with the value `n`. -/
theorem repr_spec (n : Nat) :
    (Nat.repr n).toList ≠ [] ∧ (∀ c ∈ (Nat.repr n).toList, isDigit c = true) ∧
      decimalNat (Nat.repr n).toList = n := by
  obtain ⟨l, hl, hne, hall, hval⟩ := toDigitsCore_spec (n + 1) n [] (by omega)
  have : (Nat.repr n).toList = l := by
    simp [Nat.repr, Nat.toDigits, hl, List.asString]
  rw [this]
  exact ⟨hne, hall, hval⟩

/-- Leading zeros do not change the value of a numeral. -/
theorem decimalNat_zeros (z : Nat) (l : List Char) :
    decimalNat (List.replicate z '0' ++ l) = decimalNat l := by
  have h : ∀ acc, (List.replicate z '0').foldl (fun acc c => 10 * acc + digitVal c) acc = 10 ^ z * acc := by
    induction z with
    | zero => intro acc; simp
    | succ k ih =>
      intro acc
      rw [List.replicate_succ, List.foldl_cons, ih]
      have : digitVal '0' = 0 := by decide
      rw [this]; ring
  simp [decimalNat, List.foldl_append, h]

/-- `dropWhile` skips a prefix whose elements all satisfy the predicate. -/
theorem dropWhile_append_of_all (p : Char → Bool) (a l : List Char) (ha : ∀ c ∈ a, p c = true) :
    (a ++ l).dropWhile p = l.dropWhile p := by
  induction a with
  | nil => rfl
  | cons x a ih =>
    have hx : p x = true := ha x (by simp)
    rw [List.cons_append, List.dropWhile_cons_of_pos hx]
    exact ih (fun c hc => ha c (by simp [hc]))

/-- `takeWhile` keeps a prefix whose elements all satisfy the predicate. -/
theorem takeWhile_append_of_all (p : Char → Bool) (a l : List Char) (ha : ∀ c ∈ a, p c = true) :
    (a ++ l).takeWhile p = a ++ l.takeWhile p := by
  induction a with
  | nil => rfl
  | cons x a ih =>
    have hx : p x = true := ha x (by simp)
    rw [List.cons_append, List.takeWhile_cons_of_pos hx, ih (fun c hc => ha c (by simp [hc]))]
    rfl

/-- `dropWhile` stops at once when the first element fails the predicate. -/
theorem dropWhile_of_head (p : Char → Bool) (l : List Char) (h : ∀ c ∈ l.head?, p c = false) :
    l.dropWhile p = l := by
  cases l with
  | nil => rfl
  | cons x t =>
    have hx : p x = false := h x (by simp)
    simp [List.dropWhile_cons, hx]

/-- `takeWhile` takes nothing when the first element fails the predicate. -/
theorem takeWhile_of_head (p : Char → Bool) (l : List Char) (h : ∀ c ∈ l.head?, p c = false) :
    l.takeWhile p = [] := by
  cases l with
  | nil => rfl
  | cons x t =>
    have hx : p x = false := h x (by simp)
    simp [List.takeWhile_cons, hx]

/-- `TrimSpace` removes white space around a core that neither starts nor ends with
white space. -/
theorem trimSpace_core (a core b : List Char) (ha : ∀ c ∈ a, isSpace c = true)
    (hb : ∀ c ∈ b, isSpace c = true) (hhead : ∀ c ∈ core.head?, isSpace c = false)
    (hlast : ∀ c ∈ core.getLast?, isSpace c = false) (hne : core ≠ []) :
    TrimSpace (a ++ core ++ b) = core := by
  unfold TrimSpace
  rw [List.append_assoc, dropWhile_append_of_all _ _ _ ha]
  have h1 : (core ++ b).dropWhile isSpace = core ++ b := by
    apply dropWhile_of_head
    intro c hc
    cases core with
    | nil => exact absurd rfl hne
    | cons x t => exact hhead c (by simpa using hc)
  rw [h1, List.rdropWhile, List.reverse_append,
    dropWhile_append_of_all _ _ _ (fun c hc => hb c (List.mem_reverse.mp hc)),
    dropWhile_of_head _ _ (by rw [List.head?_reverse]; exact hlast), List.reverse_reverse]

/-- An ASCII character that is not a lower-case letter is its own upper case. -/
theorem toUpperRune_of_not_lower (up : Char → Char) (c : Char) (h : c.toNat ≤ 0x7F)
    (h2 : ¬ ('a'.toNat ≤ c.toNat ∧ c.toNat ≤ 'z'.toNat)) : toUpperRune up c = c := by
  simp only [toUpperRune, if_pos h, if_neg h2]

/-- The code points of the digits. -/
theorem isDigit_bounds {c : Char} (h : isDigit c = true) : 48 ≤ c.toNat ∧ c.toNat ≤ 57 := by
  simpa [isDigit] using h

/-- Upper-casing leaves a digit unchanged. -/
theorem toUpperRune_digit (up : Char → Char) (c : Char) (h : isDigit c = true) :
    toUpperRune up c = c := by
  have hb := isDigit_bounds h
  apply toUpperRune_of_not_lower
  · omega
  · have : 'a'.toNat = 97 := by decide
    omega

/-- The five characters of the class `\s`. -/
theorem isReSpace_cases {c : Char} (h : isReSpace c = true) :
    c = '\t' ∨ c = '\n' ∨ c = '\x0c' ∨ c = '\r' ∨ c = ' ' := by
  simpa [isReSpace, or_assoc] using h

/-- A character of the class `\s` is unchanged by upper-casing, is white space for
`TrimSpace`, and is neither a digit nor a point. -/
theorem toUpperRune_reSpace (up : Char → Char) (c : Char) (h : isReSpace c = true) :
    toUpperRune up c = c ∧ isSpace c = true ∧ isDigit c = false ∧ c ≠ '.' := by
  rcases isReSpace_cases h with h | h | h | h | h <;> subst h <;>
    exact ⟨toUpperRune_of_not_lower up _ (by decide) (by decide), by decide, by decide, by decide⟩

/-- Upper-casing maps white space to white space when the case table does. -/
theorem isSpace_toUpperRune (up : Char → Char) (hup : ∀ c, isSpace c = true → isSpace (up c) = true)
    (c : Char) (h : isSpace c = true) : isSpace (toUpperRune up c) = true := by
  unfold toUpperRune
  by_cases h1 : c.toNat ≤ 0x7F
  · rw [if_pos h1]
    by_cases h2 : 'a'.toNat ≤ c.toNat ∧ c.toNat ≤ 'z'.toNat
    · exfalso
      have ha : 'a'.toNat = 97 := by decide
      have hz : 'z'.toNat = 122 := by decide
      rw [ha, hz] at h2
      simp only [isSpace, Bool.or_eq_true, beq_iff_eq, Bool.and_eq_true, decide_eq_true_eq] at h
      omega
    · rw [if_neg h2]; exact h
  · rw [if_neg h1]; exact hup c h

/-- A digit is not white space. -/
theorem isDigit_not_space {c : Char} (h : isDigit c = true) : isSpace c = false := by
  have hb := isDigit_bounds h
  cases hs : isSpace c with
  | false => rfl
  | true =>
    exfalso
    simp only [isSpace, Bool.or_eq_true, beq_iff_eq, Bool.and_eq_true, decide_eq_true_eq] at hs
    omega

/-- The pattern on `digits ++ spaces ++ unit`: the groups are the digits and the unit. -/
theorem findStringSubmatch_digits (ds w U : List Char) (hne : ds ≠ [])
    (hds : ∀ c ∈ ds, isDigit c = true) (hw : ∀ c ∈ w, isReSpace c = true)
    (hU : matchUnit U = true)
    (hUh : ∀ c ∈ U.head?, isReSpace c = false ∧ isDigit c = false ∧ c ≠ '.') :
    FindStringSubmatch (ds ++ w ++ U) = some (ds, U) := by
  have hhead : ∀ c ∈ (w ++ U).head?, isDigit c = false ∧ c ≠ '.' := by
    intro c hc
    cases w with
    | nil => exact (hUh c (by simpa using hc)).2
    | cons x t =>
      have : c = x := by simpa using hc.symm
      subst this
      have := toUpperRune_reSpace id c (hw c (by simp))
      exact ⟨this.2.2.1, this.2.2.2⟩
  have htake : (ds ++ (w ++ U)).takeWhile isDigit = ds := by
    rw [takeWhile_append_of_all _ _ _ hds, takeWhile_of_head _ _ (fun c hc => (hhead c hc).1)]
    simp
  have hdrop : (ds ++ (w ++ U)).dropWhile isDigit = w ++ U := by
    rw [dropWhile_append_of_all _ _ _ hds, dropWhile_of_head _ _ (fun c hc => (hhead c hc).1)]
  have hdw : (w ++ U).dropWhile isReSpace = U := by
    rw [dropWhile_append_of_all _ _ _ hw, dropWhile_of_head _ _ (fun c hc => (hUh c hc).1)]
  unfold FindStringSubmatch
  rw [List.append_assoc, htake, hdrop]
  have hemp : ds.isEmpty = false := by
    cases ds with
    | nil => exact absurd rfl hne
    | cons x t => rfl
  simp only [hemp, Bool.false_eq_true, if_false]
  cases hwu : w ++ U with
  | nil =>
    have hU0 : U = [] := (List.append_eq_nil.mp hwu).2
    simp [hU0, matchUnit]
  | cons c t =>
    have hc : c ≠ '.' := (hhead c (by simp [hwu])).2
    have hbeq : (c == '.') = false := by simpa using hc
    simp only [hbeq, Bool.false_and, Bool.false_eq_true, if_false]
    rw [← hwu, hdw, hU]
    simp

/-- `ParseFloat` on a string of digits with a value below `2^53` returns that value. -/
theorem parseFloat_digits (ds : List Char) (hne : ds ≠ []) (hds : ∀ c ∈ ds, isDigit c = true)
    (hlt : decimalNat ds < 2 ^ 53) : ParseFloat ds = some (decimalNat ds : ℚ) := by
  have htake : ds.takeWhile isDigit = ds := by
    have := takeWhile_append_of_all isDigit ds [] hds
    simpa using this
  have hdrop : ds.dropWhile isDigit = [] := by
    have := dropWhile_append_of_all isDigit ds [] hds
    simpa using this
  have hemp : ds.isEmpty = false := by
    cases ds with
    | nil => exact absurd rfl hne
    | cons x t => rfl
  have hr : roundF64 ((decimalNat ds : ℚ)) = (decimalNat ds : ℚ) := by
    have := roundF64_intCast (decimalNat ds : Int)
      (by rw [abs_of_nonneg (by positivity)]; exact_mod_cast hlt)
    simpa using this
  have hbig : ¬ ((2 : ℚ) ^ (1024 : Nat) ≤ (decimalNat ds : ℚ)) := by
    have h1 : (decimalNat ds : ℚ) < (2 : ℚ) ^ (53 : Nat) := by exact_mod_cast hlt
    have h2 : (2 : ℚ) ^ (53 : Nat) ≤ (2 : ℚ) ^ (1024 : Nat) :=
      pow_le_pow_right₀ (by norm_num) (by norm_num)
    intro h
    linarith
  unfold ParseFloat
  simp only [htake, hdrop, hemp, List.append_nil, List.length_nil, pow_zero, div_one, hr,
    Bool.false_eq_true, if_false, if_neg hbig]

/-- On ASCII the upper case does not depend on the case table. -/
theorem toUpperRune_ascii (up : Char → Char) (c : Char) (h : c.toNat ≤ 0x7F) :
    toUpperRune up c = toUpperRune id c := by
  simp only [toUpperRune, if_pos h]

/-- On an ASCII string the upper case does not depend on the case table. -/
theorem toUpper_ascii (up : Char → Char) (l : List Char) (h : ∀ c ∈ l, c.toNat ≤ 0x7F) :
    ToUpper up l = ToUpper id l := by
  unfold ToUpper
  exact List.map_congr_left (fun c hc => toUpperRune_ascii up c (h c hc))

/-- Upper-casing leaves a string of fixed points unchanged. -/
theorem toUpper_eq_self (up : Char → Char) (l : List Char)
    (h : ∀ c ∈ l, toUpperRune up c = c) : ToUpper up l = l := by
  unfold ToUpper
  calc l.map (toUpperRune up) = l.map id := List.map_congr_left h
    _ = l := List.map_id l

/-- There are five tiers of units. -/
theorem unitSpellings_tier {t : Nat} {u : List Char} (hu : u ∈ unitSpellings t) : t ≤ 4 := by
  rcases t with _ | _ | _ | _ | _ | t
  all_goals first | omega | (simp [unitSpellings] at hu)

/-- The upper case of a unit spelled in any case is accepted by the pattern and selects the
multiplier of its tier. -/
theorem unit_facts (up : Char → Char) (t : Nat) (u : List Char) (hu : u ∈ unitSpellings t) :
    unitOk t (ToUpper up u) ∧ (u = [] ↔ ToUpper up u = []) := by
  have hempty : (u = [] ↔ ToUpper up u = []) := by
    unfold ToUpper; simp
  refine ⟨?_, hempty⟩
  have hascii : ∀ c ∈ u, c.toNat ≤ 0x7F := by
    rcases t with _ | _ | _ | _ | _ | t
    all_goals simp only [unitSpellings, List.mem_cons, List.mem_singleton, List.not_mem_nil,
      or_false] at hu
    all_goals first | exact absurd hu id | (rcases hu with h | h | h | h | h | h <;> subst h <;> decide) | (rcases hu with h | h | h <;> subst h <;> decide)
  rw [toUpper_ascii up u hascii]
  rcases t with _ | _ | _ | _ | _ | t
  all_goals simp only [unitSpellings, List.mem_cons, List.mem_singleton, List.not_mem_nil,
    or_false] at hu
  all_goals first | exact absurd hu id | (rcases hu with h | h | h | h | h | h <;> subst h <;> decide) | (rcases hu with h | h | h <;> subst h <;> decide)

/-- The head of a concatenation with a non-empty left part. -/
theorem head?_append_left {α : Type} (a b : List α) (h : a ≠ []) : (a ++ b).head? = a.head? := by
  cases a with
  | nil => exact absurd rfl h
  | cons x t => rfl

/-- The last element of a concatenation with a non-empty right part. -/
theorem getLast?_append_right {α : Type} (a b : List α) (h : b ≠ []) :
    (a ++ b).getLast? = b.getLast? := by
  have h1 := List.head?_reverse (a ++ b)
  have h2 := List.head?_reverse b
  rw [← h1, ← h2, List.reverse_append]
  exact head?_append_left _ _ (by simpa using h)

/-- The head of a list is an element of the list. -/
theorem mem_head? {c : Char} {l : List Char} (h : c ∈ l.head?) : c ∈ l := by
  cases l with
  | nil => simp at h
  | cons x t => simp at h; simp [h]

/-- The last element of a list is an element of the list. -/
theorem mem_getLast? {c : Char} {l : List Char} (h : c ∈ l.getLast?) : c ∈ l :=
  List.mem_of_mem_getLast? h

/-- The digits of a number with leading zeros. -/
theorem numeral_spec (z n : Nat) :
    List.replicate z '0' ++ (Nat.repr n).toList ≠ [] ∧
    (∀ c ∈ List.replicate z '0' ++ (Nat.repr n).toList, isDigit c = true) ∧
    decimalNat (List.replicate z '0' ++ (Nat.repr n).toList) = n := by
  obtain ⟨hne, hall, hval⟩ := repr_spec n
  refine ⟨fun h => hne (List.append_eq_nil.mp h).2, ?_, by rw [decimalNat_zeros, hval]⟩
  intro c hc
  rcases List.mem_append.mp hc with hc | hc
  · have : c = '0' := (List.mem_replicate.mp hc).2
    rw [this]; decide
  · exact hall c hc

/-- After upper-casing and trimming, the pattern finds the numeral and the unit. -/
theorem submatch_of_parts (up : Char → Char)
    (hup : ∀ c, isSpace c = true → isSpace (up c) = true)
    (ws1 ds ws2 u ws3 : List Char) (t : Nat)
    (h1 : ∀ c ∈ ws1, isSpace c = true) (h2 : ∀ c ∈ ws2, isReSpace c = true)
    (h3 : ∀ c ∈ ws3, isSpace c = true) (hne : ds ≠ []) (hds : ∀ c ∈ ds, isDigit c = true)
    (hu : u ∈ unitSpellings t) :
    FindStringSubmatch (TrimSpace (ToUpper up (ws1 ++ ds ++ ws2 ++ u ++ ws3))) =
      some (ds, ToUpper up u) := by
  obtain ⟨⟨hU, hUh, hUl, _⟩, hempty⟩ := unit_facts up t u hu
  have hsp : ∀ l : List Char, (∀ c ∈ l, isSpace c = true) →
      ∀ c ∈ ToUpper up l, isSpace c = true := by
    intro l hl c hc
    obtain ⟨c0, hc0, rfl⟩ := List.mem_map.mp hc
    exact isSpace_toUpperRune up hup c0 (hl c0 hc0)
  have hds' : ToUpper up ds = ds := toUpper_eq_self up ds (fun c hc => toUpperRune_digit up c (hds c hc))
  have hws2 : ToUpper up ws2 = ws2 :=
    toUpper_eq_self up ws2 (fun c hc => (toUpperRune_reSpace up c (h2 c hc)).1)
  have hsplit : ToUpper up (ws1 ++ ds ++ ws2 ++ u ++ ws3) =
      ToUpper up ws1 ++ ds ++ ws2 ++ ToUpper up u ++ ToUpper up ws3 := by
    have : ToUpper up (ws1 ++ ds ++ ws2 ++ u ++ ws3) =
        ToUpper up ws1 ++ ToUpper up ds ++ ToUpper up ws2 ++ ToUpper up u ++ ToUpper up ws3 := by
      simp [ToUpper]
    rw [this, hds', hws2]
  have hdhead : ∀ c ∈ ds.head?, isSpace c = false := fun c hc =>
    isDigit_not_space (hds c (mem_head? hc))
  rw [hsplit]
  by_cases hU0 : ToUpper up u = []
  · have hws2sp : ∀ c ∈ ws2 ++ ToUpper up ws3, isSpace c = true := by
      intro c hc
      rcases List.mem_append.mp hc with hc | hc
      · exact (toUpperRune_reSpace up c (h2 c hc)).2.1
      · exact hsp ws3 h3 c hc
    have htrim : TrimSpace (ToUpper up ws1 ++ ds ++ ws2 ++ ToUpper up u ++ ToUpper up ws3) = ds := by
      have : ToUpper up ws1 ++ ds ++ ws2 ++ ToUpper up u ++ ToUpper up ws3 =
          ToUpper up ws1 ++ ds ++ (ws2 ++ ToUpper up ws3) := by
        rw [hU0]; simp
      rw [this]
      exact trimSpace_core _ _ _ (hsp ws1 h1) hws2sp hdhead
        (fun c hc => isDigit_not_space (hds c (mem_getLast? hc))) hne
    rw [htrim, hU0]
    have := findStringSubmatch_digits ds [] [] hne hds (by simp) (by decide) (by simp)
    simpa using this
  · have htrim : TrimSpace (ToUpper up ws1 ++ ds ++ ws2 ++ ToUpper up u ++ ToUpper up ws3) =
        ds ++ ws2 ++ ToUpper up u := by
      have : ToUpper up ws1 ++ ds ++ ws2 ++ ToUpper up u ++ ToUpper up ws3 =
          ToUpper up ws1 ++ (ds ++ ws2 ++ ToUpper up u) ++ ToUpper up ws3 := by
        simp
      rw [this]
      refine trimSpace_core _ _ _ (hsp ws1 h1) (hsp ws3 h3) ?_ ?_ (by simp [hne])
      · rw [List.append_assoc, head?_append_left _ _ hne]; exact hdhead
      · rw [getLast?_append_right _ _ hU0]; exact hUl
    rw [htrim]
    exact findStringSubmatch_digits ds ws2 (ToUpper up u) hne hds h2 hU hUh

/-- C1. For every input made of optional surrounding white space (what
`strings.TrimSpace` removes), a decimal integer `n` (possibly with leading zeros),
optional white space (what `\s` matches) and a unit of tier `t` written in any letter
case, with `n * 1024^t` below `2^53`, `ParseSize` returns `n * 1024^t` and no error.
The Unicode case table is assumed to map white space to white space. -/
theorem C1_ParseSize_integer_with_unit (up : Char → Char) (pf : Platform)
    (ws1 ws2 ws3 u : List Char) (z n t : Nat)
    (hup : ∀ c, isSpace c = true → isSpace (up c) = true)
    (h1 : ∀ c ∈ ws1, isSpace c = true) (h2 : ∀ c ∈ ws2, isReSpace c = true)
    (h3 : ∀ c ∈ ws3, isSpace c = true) (hu : u ∈ unitSpellings t)
    (hn : n * 1024 ^ t < 2 ^ 53) :
    ParseSize up pf
        (ws1 ++ (List.replicate z '0' ++ (Nat.repr n).toList) ++ ws2 ++ u ++ ws3) =
      (((n * 1024 ^ t : Nat) : Int), none) := by
  obtain ⟨hne, hds, hval⟩ := numeral_spec z n
  have hsub := submatch_of_parts up hup ws1 _ ws2 u ws3 t h1 h2 h3 hne hds hu
  obtain ⟨⟨_, _, _, hmul⟩, _⟩ := unit_facts up t u hu
  have ht : t ≤ 4 := unitSpellings_tier hu
  have hpow : (1024 : Nat) ^ t < 2 ^ 53 := by
    calc (1024 : Nat) ^ t ≤ 1024 ^ 4 := Nat.pow_le_pow_right (by norm_num) ht
      _ < 2 ^ 53 := by norm_num
  have hnlt : n < 2 ^ 53 := by
    have : 1 ≤ 1024 ^ t := Nat.one_le_pow _ _ (by norm_num)
    calc n = n * 1 := (Nat.mul_one n).symm
      _ ≤ n * 1024 ^ t := Nat.mul_le_mul_left n this
      _ < 2 ^ 53 := hn
  have hpf := parseFloat_digits _ hne hds (by rw [hval]; exact hnlt)
  rw [hval] at hpf
  have hconv : float64OfInt ((1024 : Int) ^ t) = ((1024 : Int) ^ t : Int) := by
    unfold float64OfInt
    apply roundF64_intCast
    rw [abs_of_nonneg (by positivity)]
    exact_mod_cast hpow
  have hprod : mulF64 (n : ℚ) (((1024 : Int) ^ t : Int) : ℚ) = (((n * 1024 ^ t : Nat) : Int) : ℚ) := by
    unfold mulF64
    have := roundF64_intCast ((n * 1024 ^ t : Nat) : Int)
      (by rw [abs_of_nonneg (by positivity)]; exact_mod_cast hn)
    rw [← this]
    congr 1
    push_cast
    ring
  have hin : inInt64 ((n * 1024 ^ t : Nat) : Int) := by
    unfold inInt64
    constructor
    · have : (0 : Int) ≤ ((n * 1024 ^ t : Nat) : Int) := by positivity
      omega
    · have : ((n * 1024 ^ t : Nat) : Int) < ((2 ^ 53 : Nat) : Int) := by exact_mod_cast hn
      have h53 : ((2 ^ 53 : Nat) : Int) < 2 ^ 63 := by norm_num
      omega
  unfold ParseSize
  simp only [hsub, hpf, hmul, hconv, hprod, truncToInt64_intCast pf _ hin]

/-- C1, the examples of the specification: `1GB`, `500MB`, `100KB` and `123`; then
` 500 mb ` with white space and lower-case letters, and `1GB` between two vertical
tabs. -/
theorem C1_ParseSize_examples :
    ParseSize id amd64 ['1', 'G', 'B'] = (2 ^ 30, none) ∧
    ParseSize id amd64 ['5', '0', '0', 'M', 'B'] = (500 * 2 ^ 20, none) ∧
    ParseSize id amd64 ['1', '0', '0', 'K', 'B'] = (100 * 1024, none) ∧
    ParseSize id amd64 ['1', '2', '3'] = (123, none) ∧
    ParseSize id amd64 [' ', '5', '0', '0', ' ', 'm', 'b', ' '] = (500 * 2 ^ 20, none) ∧
    ParseSize id amd64 ['\x0b', '1', 'G', 'B', '\x0b'] = (2 ^ 30, none) :=
  ⟨C1_ParseSize_integer_with_unit id amd64 [] [] [] ['G', 'B'] 0 1 3 (fun _ h => h)
      (by decide) (by decide) (by decide) (by decide) (by norm_num),
    C1_ParseSize_integer_with_unit id amd64 [] [] [] ['M', 'B'] 0 500 2 (fun _ h => h)
      (by decide) (by decide) (by decide) (by decide) (by norm_num),
    C1_ParseSize_integer_with_unit id amd64 [] [] [] ['K', 'B'] 0 100 1 (fun _ h => h)
      (by decide) (by decide) (by decide) (by decide) (by norm_num),
    C1_ParseSize_integer_with_unit id amd64 [] [] [] [] 0 123 0 (fun _ h => h)
      (by decide) (by decide) (by decide) (by decide) (by norm_num),
    C1_ParseSize_integer_with_unit id amd64 [' '] [' '] [' '] ['m', 'b'] 0 500 2 (fun _ h => h)
      (by decide) (by decide) (by decide) (by decide) (by norm_num),
    C1_ParseSize_integer_with_unit id amd64 ['\x0b'] [] ['\x0b'] ['G', 'B'] 0 1 3
      (fun _ h => h) (by decide) (by decide) (by decide) (by decide) (by norm_num)⟩

/-- The white space between number and unit is that of the pattern: a vertical tab
there is rejected, although `strings.TrimSpace` removes it at the ends. -/
theorem ParseSize_inner_vertical_tab :
    ∃ msg, ParseSize id amd64 ['1', '\x0b', 'G', 'B'] = (0, some msg) := by
  have h : FindStringSubmatch (TrimSpace (ToUpper id ['1', '\x0b', 'G', 'B'])) = none := by
    decide
  unfold ParseSize
  simp only [h]
  exact ⟨_, rfl⟩

/-! ### `CalculateParameters` -/

/-- The row length chosen by `CalculateParameters` is positive. -/
theorem rowLen_pos (dbSize ov : Int) : 0 < (CalculateParameters dbSize ov).2 := by
  unfold CalculateParameters
  simp only
  split_ifs <;> omega

/-- The row count is the truncated quotient, raised to 1 when the quotient is 0. -/
theorem numRows_eq (dbSize ov : Int) :
    (CalculateParameters dbSize ov).1 =
      if Int.tdiv dbSize (CalculateParameters dbSize ov).2 < 1 then 1
      else Int.tdiv dbSize (CalculateParameters dbSize ov).2 := by
  unfold CalculateParameters
  rfl

/-- C2, counterexample. For the target 5 with the override 100 the result is
`(1, 100)`: the product 100 exceeds the target 5. -/
theorem C2_product_can_exceed_target :
    ¬ ((CalculateParameters 5 100).1 * (CalculateParameters 5 100).2 ≤ 5 ∧
       5 - (CalculateParameters 5 100).1 * (CalculateParameters 5 100).2 <
         (CalculateParameters 5 100).2) := by
  decide

/-- C2, amended. For every target `dbSize ≥ 0` and every override the returned row
length is positive and the row count is at least 1.  When the target is at least one
row long, `numRows * rowLen` is the largest multiple of `rowLen` that does not exceed the
target; when it is shorter than one row, `numRows` is 1. -/
theorem C2_CalculateParameters_product (dbSize ov : Int) (h0 : 0 ≤ dbSize) :
    0 < (CalculateParameters dbSize ov).2 ∧
    1 ≤ (CalculateParameters dbSize ov).1 ∧
    ((CalculateParameters dbSize ov).2 ≤ dbSize →
      (CalculateParameters dbSize ov).1 * (CalculateParameters dbSize ov).2 ≤ dbSize ∧
      dbSize - (CalculateParameters dbSize ov).1 * (CalculateParameters dbSize ov).2 <
        (CalculateParameters dbSize ov).2) ∧
    (dbSize < (CalculateParameters dbSize ov).2 → (CalculateParameters dbSize ov).1 = 1) := by
  have hpos := rowLen_pos dbSize ov
  have hrows := numRows_eq dbSize ov
  set rowLen := (CalculateParameters dbSize ov).2 with hr
  set numRows := (CalculateParameters dbSize ov).1 with hn
  have hdiv : Int.tdiv dbSize rowLen = dbSize / rowLen := Int.tdiv_eq_ediv h0 (le_of_lt hpos)
  rw [hdiv] at hrows
  have hmod := Int.emod_add_ediv dbSize rowLen
  have hmod0 := Int.emod_nonneg dbSize (ne_of_gt hpos)
  have hmodlt := Int.emod_lt_of_pos dbSize hpos
  have hq0 : 0 ≤ dbSize / rowLen := Int.ediv_nonneg h0 (le_of_lt hpos)
  refine ⟨hpos, ?_, ?_, ?_⟩
  · rw [hrows]; split_ifs <;> omega
  · intro hle
    have hq1 : 1 ≤ dbSize / rowLen := by
      by_contra hlt
      have hq : dbSize / rowLen = 0 := by omega
      rw [hq] at hmod
      omega
    have hnum : numRows = dbSize / rowLen := by
      rw [hrows, if_neg (by omega)]
    rw [hnum]
    have hcomm : dbSize / rowLen * rowLen = rowLen * (dbSize / rowLen) := mul_comm _ _
    omega
  · intro hlt
    have hq : dbSize / rowLen = 0 := Int.ediv_eq_zero_of_lt h0 hlt
    rw [hrows, hq]
    rfl

/-- C2, amended, at the target 1000 without override: 62 rows of 16 bytes. -/
theorem C2_CalculateParameters_product_witness :
    0 < (CalculateParameters 1000 0).2 ∧
    1 ≤ (CalculateParameters 1000 0).1 ∧
    ((CalculateParameters 1000 0).2 ≤ 1000 →
      (CalculateParameters 1000 0).1 * (CalculateParameters 1000 0).2 ≤ 1000 ∧
      1000 - (CalculateParameters 1000 0).1 * (CalculateParameters 1000 0).2 <
        (CalculateParameters 1000 0).2) ∧
    (1000 < (CalculateParameters 1000 0).2 → (CalculateParameters 1000 0).1 = 1) :=
  C2_CalculateParameters_product 1000 0 (by decide)

/-- C3. The row length returned by `CalculateParameters` is the override when the
override is positive; when the override is not positive it is 16 below 10 MiB, 32 from
10 MiB to below 100 MiB, 64 from 100 MiB to below 1 GiB, and 256 from 1 GiB on. -/
theorem C3_CalculateParameters_rowLen (dbSize ov : Int) :
    (0 < ov → (CalculateParameters dbSize ov).2 = ov) ∧
    (ov ≤ 0 → dbSize < 10 * 2 ^ 20 → (CalculateParameters dbSize ov).2 = 16) ∧
    (ov ≤ 0 → 10 * 2 ^ 20 ≤ dbSize → dbSize < 100 * 2 ^ 20 →
      (CalculateParameters dbSize ov).2 = 32) ∧
    (ov ≤ 0 → 100 * 2 ^ 20 ≤ dbSize → dbSize < 2 ^ 30 →
      (CalculateParameters dbSize ov).2 = 64) ∧
    (ov ≤ 0 → 2 ^ 30 ≤ dbSize → (CalculateParameters dbSize ov).2 = 256) := by
  have hdef : (CalculateParameters dbSize ov).2 =
      (if ov > 0 then ov
       else if dbSize < 10 * 1024 * 1024 then 16
       else if dbSize < 100 * 1024 * 1024 then 32
       else if dbSize < 1024 * 1024 * 1024 then 64
       else 256) := rfl
  rw [hdef]
  refine ⟨?_, ?_, ?_, ?_, ?_⟩
  · intro h
    rw [if_pos h]
  · intro h h1
    rw [if_neg (by omega), if_pos (by omega)]
  · intro h h1 h2
    rw [if_neg (by omega), if_neg (by omega), if_pos (by omega)]
  · intro h h1 h2
    rw [if_neg (by omega), if_neg (by omega), if_neg (by omega), if_pos (by omega)]
  · intro h h1
    rw [if_neg (by omega), if_neg (by omega), if_neg (by omega), if_neg (by omega)]

/-- C3, in each tier: the override 100 is kept; without override 5 MiB gives 16,
50 MiB gives 32, 512 MiB gives 64 and 2 GiB gives 256. -/
theorem C3_CalculateParameters_rowLen_witness :
    (CalculateParameters 1000 100).2 = 100 ∧
    (CalculateParameters (5 * 2 ^ 20) 0).2 = 16 ∧
    (CalculateParameters (50 * 2 ^ 20) 0).2 = 32 ∧
    (CalculateParameters (512 * 2 ^ 20) 0).2 = 64 ∧
    (CalculateParameters (2 * 2 ^ 30) 0).2 = 256 :=
  ⟨(C3_CalculateParameters_rowLen 1000 100).1 (by decide),
    (C3_CalculateParameters_rowLen (5 * 2 ^ 20) 0).2.1 (by decide) (by decide),
    (C3_CalculateParameters_rowLen (50 * 2 ^ 20) 0).2.2.1 (by decide) (by decide) (by decide),
    (C3_CalculateParameters_rowLen (512 * 2 ^ 20) 0).2.2.2.1 (by decide) (by decide) (by decide),
    (C3_CalculateParameters_rowLen (2 * 2 ^ 30) 0).2.2.2.2 (by decide) (by decide)⟩

/-- C4, counterexample. For exactly 1 GiB without override the result is not
`(16777216, 64)`. -/
theorem C4_one_GiB_is_not_rowLen_64 :
    ¬ ((CalculateParameters (2 ^ 30) 0).2 = 64 ∧
       (CalculateParameters (2 ^ 30) 0).1 = 16777216) := by
  decide

/-- C4, amended. For exactly 1 GiB without override `CalculateParameters` returns
`rowLen = 256` and `numRows = dbSize / 256 = 4194304`; one byte below 1 GiB it returns
`rowLen = 64`. -/
theorem C4_one_GiB_rowLen_256 :
    (CalculateParameters (2 ^ 30) 0).2 = 256 ∧
    (CalculateParameters (2 ^ 30) 0).1 = 2 ^ 30 / 256 ∧
    (CalculateParameters (2 ^ 30) 0).1 = 4194304 ∧
    (CalculateParameters (2 ^ 30 - 1) 0).2 = 64 := by
  decide

/-! ### The online loop -/

/-- One passing trial: the loop goes on with the samples of this trial recorded. -/
theorem onlineLoop_step_pass (query : Nat → QueryOutcome) (numRows : Int) (hrows : 0 < numRows)
    (remaining i : Nat) (st : LoopState) (hfirst : hasFirstElements (query i))
    (hpass : ¬ failingTrial (query i)) :
    onlineLoop query numRows (remaining + 1) i st =
      onlineLoop query numRows remaining (i + 1)
        { queryTimes := st.queryTimes ++ [(query i).queryTimeUs]
          serverTimes := st.serverTimes ++ [(query i).serverTimeUs]
          totalOnlineBytes := wrap64 (st.totalOnlineBytes + (query i).onlineBytes) } := by
  unfold failingTrial at hpass
  unfold hasFirstElements at hfirst
  have herr : (query i).readErr = none := by
    by_contra h; exact hpass (Or.inl h)
  have hhead : (query i).row.head? = (query i).value.head? := by
    by_contra h; exact hpass (Or.inr h)
  obtain ⟨hrow, hval⟩ := hfirst herr
  rw [onlineLoop, if_neg (by omega)]
  simp only [herr]
  cases hr : (query i).row with
  | nil => exact absurd hr hrow
  | cons r0 rs =>
    cases hv : (query i).value with
    | nil => exact absurd hv hval
    | cons v0 vs =>
      rw [hr, hv] at hhead
      have h0 : r0 = v0 := by simpa using hhead
      simp [h0]

/-- One failing trial: the loop returns an error. -/
theorem onlineLoop_step_fail (query : Nat → QueryOutcome) (numRows : Int) (hrows : 0 < numRows)
    (remaining i : Nat) (st : LoopState) (hfirst : hasFirstElements (query i))
    (hfail : failingTrial (query i)) :
    ∃ msg, onlineLoop query numRows (remaining + 1) i st = .err msg := by
  unfold hasFirstElements at hfirst
  rw [onlineLoop, if_neg (by omega)]
  simp only
  cases herr : (query i).readErr with
  | some e => exact ⟨_, rfl⟩
  | none =>
    obtain ⟨hrow, hval⟩ := hfirst herr
    have hhead : (query i).row.head? ≠ (query i).value.head? := by
      rcases hfail with h | h
      · exact absurd herr h
      · exact h
    cases hr : (query i).row with
    | nil => exact absurd hr hrow
    | cons r0 rs =>
      cases hv : (query i).value with
      | nil => exact absurd hv hval
      | cons v0 vs =>
        rw [hr, hv] at hhead
        have h0 : r0 ≠ v0 := by simpa using hhead
        simp only [if_pos h0]
        exact ⟨_, rfl⟩

/-- When no trial fails, the loop completes. -/
theorem onlineLoop_all_pass (query : Nat → QueryOutcome) (numRows : Int) (hrows : 0 < numRows) :
    ∀ (remaining i : Nat) (st : LoopState),
      (∀ j, i ≤ j → j < i + remaining → hasFirstElements (query j)) →
      (∀ j, i ≤ j → j < i + remaining → ¬ failingTrial (query j)) →
      ∃ st', onlineLoop query numRows remaining i st = .ok st' := by
  intro remaining
  induction remaining with
  | zero => intro i st _ _; exact ⟨st, by rw [onlineLoop]⟩
  | succ k ih =>
    intro i st hfirst hpass
    rw [onlineLoop_step_pass query numRows hrows k i st (hfirst i le_rfl (by omega))
      (hpass i le_rfl (by omega))]
    exact ih (i + 1) _ (fun j h1 h2 => hfirst j (by omega) (by omega))
      (fun j h1 h2 => hpass j (by omega) (by omega))

/-- When some trial fails, the loop returns an error. -/
theorem onlineLoop_some_fail (query : Nat → QueryOutcome) (numRows : Int) (hrows : 0 < numRows) :
    ∀ (remaining i : Nat) (st : LoopState),
      (∀ j, i ≤ j → j < i + remaining → hasFirstElements (query j)) →
      (∃ j, i ≤ j ∧ j < i + remaining ∧ failingTrial (query j)) →
      ∃ msg, onlineLoop query numRows remaining i st = .err msg := by
  intro remaining
  induction remaining with
  | zero => intro i st _ ⟨j, h1, h2, _⟩; omega
  | succ k ih =>
    intro i st hfirst ⟨j, h1, h2, hj⟩
    by_cases hi : failingTrial (query i)
    · exact onlineLoop_step_fail query numRows hrows k i st (hfirst i le_rfl (by omega)) hi
    · rw [onlineLoop_step_pass query numRows hrows k i st (hfirst i le_rfl (by omega)) hi]
      have hne : j ≠ i := fun h => hi (h ▸ hj)
      exact ih (i + 1) _ (fun j h1 h2 => hfirst j (by omega) (by omega))
        ⟨j, by omega, by omega, hj⟩

/-- The online phase returns a record exactly when the loop completes and the requested
count is not zero; the record carries the requested count. -/
theorem onlinePhase_ok_iff (query : Nat → QueryOutcome) (numRows numQueries : Int)
    (r : OnlineRecord) (h : onlinePhase query numRows numQueries = .ok r) :
    r.NumQueries = numQueries ∧ numQueries ≠ 0 := by
  unfold onlinePhase at h
  split at h
  · exact absurd h (by simp)
  · exact absurd h (by simp)
  · split_ifs at h with h0
    injection h with h
    rw [← h]
    exact ⟨rfl, h0⟩

/-- When no trial fails and the requested count is positive, the online phase returns
a record that carries the requested count. -/
theorem onlinePhase_ok_of_all_pass (query : Nat → QueryOutcome) (numRows numQueries : Int)
    (hrows : 1 ≤ numRows) (hq : 1 ≤ numQueries)
    (hfirst : ∀ i : Nat, (i : Int) < numQueries → hasFirstElements (query i))
    (hall : ∀ i : Nat, (i : Int) < numQueries → ¬ failingTrial (query i)) :
    ∃ r, onlinePhase query numRows numQueries = .ok r ∧ r.NumQueries = numQueries := by
  obtain ⟨st', hst⟩ := onlineLoop_all_pass query numRows (by omega) numQueries.toNat 0
    { queryTimes := [], serverTimes := [], totalOnlineBytes := 0 }
    (fun j _ h2 => hfirst j (by omega)) (fun j _ h2 => hall j (by omega))
  unfold onlinePhase
  rw [hst]
  simp only
  rw [if_neg (by omega)]
  exact ⟨_, rfl, rfl⟩

/-- C5. With at least one requested query (and a positive row count, rows that have a
first element), the online phase of `RunBenchmark` returns an error, and no record,
exactly when some trial's read fails or returns a row whose first element differs from
the first element of the ground-truth value; when every trial's read succeeds with a
matching first element, it returns a record whose `NumQueries` is the requested
count. -/
theorem C5_online_phase_error_iff (query : Nat → QueryOutcome) (numRows numQueries : Int)
    (hrows : 1 ≤ numRows) (hq : 1 ≤ numQueries)
    (hfirst : ∀ i : Nat, (i : Int) < numQueries → hasFirstElements (query i)) :
    ((∃ msg, onlinePhase query numRows numQueries = .err msg) ↔
      ∃ i : Nat, (i : Int) < numQueries ∧
        ((query i).readErr ≠ none ∨ (query i).row.head? ≠ (query i).value.head?)) ∧
    ((∀ i : Nat, (i : Int) < numQueries →
        (query i).readErr = none ∧ (query i).row.head? = (query i).value.head?) →
      ∃ r, onlinePhase query numRows numQueries = .ok r ∧ r.NumQueries = numQueries) := by
  have hfirst' : ∀ j, 0 ≤ j → j < 0 + numQueries.toNat → hasFirstElements (query j) :=
    fun j _ h2 => hfirst j (by omega)
  have hok : (∀ i : Nat, (i : Int) < numQueries → ¬ failingTrial (query i)) →
      ∃ r, onlinePhase query numRows numQueries = .ok r ∧ r.NumQueries = numQueries :=
    onlinePhase_ok_of_all_pass query numRows numQueries hrows hq hfirst
  constructor
  · constructor
    · rintro ⟨msg, hmsg⟩
      by_contra hnone
      have hall : ∀ i : Nat, (i : Int) < numQueries → ¬ failingTrial (query i) :=
        fun i hi hf => hnone ⟨i, hi, hf⟩
      obtain ⟨r, hr, _⟩ := hok hall
      rw [hr] at hmsg
      exact absurd hmsg (by simp)
    · rintro ⟨i, hi, hf⟩
      obtain ⟨msg, hmsg⟩ := onlineLoop_some_fail query numRows (by omega) numQueries.toNat 0
        { queryTimes := [], serverTimes := [], totalOnlineBytes := 0 } hfirst'
        ⟨i, by omega, by omega, hf⟩
      refine ⟨msg, ?_⟩
      unfold onlinePhase
      rw [hmsg]
  · intro hall
    apply hok
    intro i hi hf
    obtain ⟨h1, h2⟩ := hall i hi
    rcases hf with h | h
    · exact h h1
    · exact h h2

/-- The rows of the correct stub have a first element. -/
theorem stubCorrect_hasFirst (i : Nat) : hasFirstElements (stubCorrect i) :=
  fun _ => ⟨by simp [stubCorrect, correctTrial], by simp [stubCorrect, correctTrial]⟩

/-- No trial of the correct stub fails. -/
theorem stubCorrect_pass (i : Nat) : ¬ failingTrial (stubCorrect i) := by
  simp [failingTrial, stubCorrect, correctTrial]

/-- The rows of the mismatching stub have a first element. -/
theorem stubOneMismatch_hasFirst (i : Nat) : hasFirstElements (stubOneMismatch i) := by
  intro _
  unfold stubOneMismatch
  split_ifs <;> simp [correctTrial]

/-- C5, on two stub gateways and three requested queries: the stub that always returns
the correct row yields a record with `NumQueries = 3`; the stub that returns one
mismatched row yields an error. -/
theorem C5_online_phase_error_iff_witness :
    (∃ r, onlinePhase stubCorrect 4 3 = .ok r ∧ r.NumQueries = 3) ∧
    (∃ msg, onlinePhase stubOneMismatch 4 3 = .err msg) :=
  ⟨(C5_online_phase_error_iff stubCorrect 4 3 (by decide) (by decide)
      (fun i _ => stubCorrect_hasFirst i)).2
      (fun i _ => ⟨rfl, rfl⟩),
    (C5_online_phase_error_iff stubOneMismatch 4 3 (by decide) (by decide)
      (fun i _ => stubOneMismatch_hasFirst i)).1.mpr
      ⟨1, by decide, Or.inr (by decide)⟩⟩

/-- A read that succeeds with an empty row stops the loop with a panic: neither an
error nor a record. -/
theorem onlinePhase_empty_row_panics (query : Nat → QueryOutcome) (numRows numQueries : Int)
    (hrows : 1 ≤ numRows) (hq : 1 ≤ numQueries) (herr : (query 0).readErr = none)
    (hrow : (query 0).row = []) :
    ∃ msg, onlinePhase query numRows numQueries = .panic msg := by
  obtain ⟨k, hk⟩ : ∃ k, numQueries.toNat = k + 1 := ⟨numQueries.toNat - 1, by omega⟩
  unfold onlinePhase
  rw [hk, onlineLoop, if_neg (by omega)]
  simp only [herr, hrow]
  exact ⟨_, rfl⟩

/-! ### The square root in `float64` -/

/-- The integer square root of `n * 4^s` lies in the block of `√n`. -/
theorem sqrt_scaled_bounds (n s : Nat) :
    Nat.sqrt n * 2 ^ s ≤ Nat.sqrt (n * 4 ^ s) ∧
    Nat.sqrt (n * 4 ^ s) < (Nat.sqrt n + 1) * 2 ^ s := by
  have h4 : (4 : Nat) ^ s = 2 ^ s * 2 ^ s := by
    rw [show (4 : Nat) = 2 * 2 from rfl, mul_pow]
  constructor
  · rw [Nat.le_sqrt, h4]
    calc Nat.sqrt n * 2 ^ s * (Nat.sqrt n * 2 ^ s)
        = Nat.sqrt n * Nat.sqrt n * (2 ^ s * 2 ^ s) := by ring
      _ ≤ n * (2 ^ s * 2 ^ s) := Nat.mul_le_mul_right _ (Nat.sqrt_le n)
  · rw [Nat.sqrt_lt, h4]
    calc n * (2 ^ s * 2 ^ s)
        < (Nat.sqrt n + 1) * (Nat.sqrt n + 1) * (2 ^ s * 2 ^ s) :=
          Nat.mul_lt_mul_of_pos_right (Nat.lt_succ_sqrt n) (by positivity)
      _ = (Nat.sqrt n + 1) * 2 ^ s * ((Nat.sqrt n + 1) * 2 ^ s) := by ring

/-- Rounding the scaled root upward stays inside the block of `√n` as long as `√n + 1`
does not exceed the scale. -/
theorem sqrt_round_up_bound (n s : Nat) (hs : Nat.sqrt n + 1 ≤ 2 ^ s)
    (hup : Nat.sqrt (n * 4 ^ s) * Nat.sqrt (n * 4 ^ s) + Nat.sqrt (n * 4 ^ s) < n * 4 ^ s) :
    Nat.sqrt (n * 4 ^ s) + 1 < (Nat.sqrt n + 1) * 2 ^ s := by
  have h4 : (4 : Nat) ^ s = 2 ^ s * 2 ^ s := by
    rw [show (4 : Nat) = 2 * 2 from rfl, mul_pow]
  obtain ⟨_, hlt⟩ := sqrt_scaled_bounds n s
  by_contra hcon
  have hT : Nat.sqrt (n * 4 ^ s) + 1 = (Nat.sqrt n + 1) * 2 ^ s := by omega
  have hn : n + 1 ≤ (Nat.sqrt n + 1) * (Nat.sqrt n + 1) := Nat.lt_succ_sqrt n
  rw [h4] at hup hT
  generalize Nat.sqrt (n * (2 ^ s * 2 ^ s)) = m at hup hT
  generalize Nat.sqrt n = K at hs hT hn
  generalize (2 : Nat) ^ s = P at hs hup hT
  have hP : 0 < P := by omega
  -- n * P * P + P * P ≤ (K + 1)² P² = (m + 1)²
  have h1 : (n + 1) * (P * P) ≤ (m + 1) * (m + 1) := by
    calc (n + 1) * (P * P) ≤ (K + 1) * (K + 1) * (P * P) := Nat.mul_le_mul_right _ hn
      _ = (K + 1) * P * ((K + 1) * P) := by ring
      _ = (m + 1) * (m + 1) := by rw [hT]
  have h2 : (K + 1) * P ≤ P * P := Nat.mul_le_mul_right _ hs
  nlinarith

/-- The correctly rounded square root of a natural number below `2^52`, as a quotient
whose numerator lies in the block of the integer square root. -/
theorem sqrtF64_natCast (n : Nat) (h1 : 1 ≤ n) (h2 : n < 2 ^ 52) :
    ∃ r s : Nat, sqrtF64 (n : ℚ) = (r : ℚ) / ((2 ^ s : Nat) : ℚ) ∧
      Nat.sqrt n * 2 ^ s ≤ r ∧ r < (Nat.sqrt n + 1) * 2 ^ s := by
  have hL : Nat.log 2 n < 52 := Nat.log_lt_of_lt_pow (by omega) h2
  set L := Nat.log 2 n with hLdef
  obtain ⟨s, hs⟩ : ∃ s : Nat, s = 52 - L / 2 := ⟨_, rfl⟩
  have hs27 : 27 ≤ s := by omega
  have hK : Nat.sqrt n + 1 ≤ 2 ^ s := by
    have hK26 : Nat.sqrt n < 2 ^ 26 := by
      rw [Nat.sqrt_lt]
      calc n < 2 ^ 52 := h2
        _ = 2 ^ 26 * 2 ^ 26 := by norm_num
    have : (2 : Nat) ^ 26 ≤ 2 ^ s := Nat.pow_le_pow_right (by norm_num) (by omega)
    omega
  have hexp : Int.log 2 ((n : ℚ)) / 2 - 52 = -(s : Int) := by
    rw [Int.log_natCast]
    omega
  have hulp : (2 : ℚ) ^ (Int.log 2 ((n : ℚ)) / 2 - 52) = 1 / ((2 ^ s : Nat) : ℚ) := by
    rw [hexp, zpow_neg, zpow_natCast]
    push_cast
    rw [one_div]
  have h4 : (4 : Nat) ^ s = 2 ^ s * 2 ^ s := by
    rw [show (4 : Nat) = 2 * 2 from rfl, mul_pow]
  have hy : (n : ℚ) / (1 / ((2 ^ s : Nat) : ℚ) * (1 / ((2 ^ s : Nat) : ℚ))) =
      ((n * 4 ^ s : Nat) : ℚ) := by
    rw [h4]
    push_cast
    field_simp
  have hnpos : ¬ ((n : ℚ) ≤ 0) := by
    have : (0 : ℚ) < (n : ℚ) := by exact_mod_cast h1
    linarith
  obtain ⟨hlo, hhi⟩ := sqrt_scaled_bounds n s
  unfold sqrtF64
  rw [if_neg hnpos]
  simp only [hulp, hy, Nat.floor_natCast]
  set m := Nat.sqrt (n * 4 ^ s) with hm
  by_cases hc1 : ((n * 4 ^ s : Nat) : ℚ) < ((m : ℚ) + 1 / 2) * ((m : ℚ) + 1 / 2)
  · rw [if_pos hc1]
    exact ⟨m, s, by ring, hlo, hhi⟩
  · rw [if_neg hc1]
    have hup : m * m + m < n * 4 ^ s := by
      have h5 : ((m : ℚ) + 1 / 2) * ((m : ℚ) + 1 / 2) ≤ ((n * 4 ^ s : Nat) : ℚ) := not_lt.mp hc1
      have h6 : ((m * m + m : Nat) : ℚ) < ((n * 4 ^ s : Nat) : ℚ) := by
        push_cast
        push_cast at h5
        nlinarith
      exact_mod_cast h6
    have hbound := sqrt_round_up_bound n s hK hup
    by_cases hc2 : ((m : ℚ) + 1 / 2) * ((m : ℚ) + 1 / 2) < ((n * 4 ^ s : Nat) : ℚ)
    · rw [if_pos hc2]
      exact ⟨m + 1, s, by ring, by omega, hbound⟩
    · rw [if_neg hc2]
      by_cases hc3 : m % 2 = 0
      · rw [if_pos hc3]
        exact ⟨m, s, by ring, hlo, hhi⟩
      · rw [if_neg hc3]
        exact ⟨m + 1, s, by ring, by omega, hbound⟩

/-- `int(math.Sqrt(float64(n)))` is the integer square root for `n < 2^52`. -/
theorem setSize_eq (pf : Platform) (n : Nat) (h2 : n < 2 ^ 52) :
    truncToInt64 pf (sqrtF64 (float64OfInt (n : Int))) = (Nat.sqrt n : Int) := by
  have hconv : float64OfInt (n : Int) = (n : ℚ) := by
    unfold float64OfInt
    have := roundF64_intCast (n : Int) (by
      rw [abs_of_nonneg (by positivity)]
      have : (n : Int) < 2 ^ 52 := by exact_mod_cast h2
      omega)
    simpa using this
  rw [hconv]
  by_cases h0 : n = 0
  · subst h0
    have : sqrtF64 ((0 : Nat) : ℚ) = ((0 : Int) : ℚ) := by simp [sqrtF64]
    rw [this, truncToInt64_intCast pf 0 (by decide)]
    simp
  obtain ⟨r, s, hr, hlo, hhi⟩ := sqrtF64_natCast n (by omega) h2
  rw [hr]
  have hfloor : ⌊(r : ℚ) / ((2 ^ s : Nat) : ℚ)⌋ = (Nat.sqrt n : Int) := by
    have := Rat.floor_intCast_div_natCast (r : Int) (2 ^ s)
    rw [Int.cast_natCast] at this
    rw [this]
    have hdiv : r / 2 ^ s = Nat.sqrt n := by
      apply Nat.div_eq_of_lt_le
      · exact hlo
      · exact hhi
    exact_mod_cast hdiv
  have hnn : (0 : ℚ) ≤ (r : ℚ) / ((2 ^ s : Nat) : ℚ) := by positivity
  have hin : inInt64 (Nat.sqrt n : Int) := by
    have : Nat.sqrt n ≤ n := Nat.sqrt_le_self n
    unfold inInt64
    have h3 : (n : Int) < 2 ^ 52 := by exact_mod_cast h2
    have h4 : ((Nat.sqrt n : Nat) : Int) ≤ (n : Int) := by exact_mod_cast this
    constructor <;> omega
  unfold truncToInt64
  simp only [if_pos hnn, hfloor, if_pos hin]

/-! ### The client storage estimate -/

/-- The conversion to `float64` of a natural number below `2^53` is exact. -/
theorem float64OfInt_natCast (n : Nat) (h : n < 2 ^ 53) : float64OfInt (n : Int) = (n : ℚ) := by
  unfold float64OfInt
  have := roundF64_intCast (n : Int) (by
    rw [abs_of_nonneg (by positivity)]
    exact_mod_cast h)
  simpa using this

/-- Wrapping leaves a natural number below `2^63` unchanged. -/
theorem wrap64_natCast (a : Nat) (h : a < 2 ^ 63) : wrap64 (a : Int) = (a : Int) := by
  apply wrap64_of_inInt64
  unfold inInt64
  have : (a : Int) < 2 ^ 63 := by exact_mod_cast h
  constructor <;> omega

/-- `int(float64(128) * math.Log(2))` is 88 as soon as `math.Log(2)` is a `float64`
in `[88/128, 89/128)`. -/
theorem numHintsMultiplier_eq (pf : Platform) (ml : MathLib)
    (hLog : ∃ m : Int, ml.Log 2 = (m : ℚ) / 2 ^ 53 ∧ 88 * 2 ^ 46 ≤ m ∧ m < 89 * 2 ^ 46) :
    truncToInt64 pf (mulF64 128 (ml.Log 2)) = 88 := by
  obtain ⟨m, hm, hlo, hhi⟩ := hLog
  have hprod : (128 : ℚ) * ((m : ℚ) / 2 ^ 53) = (m : ℚ) * (2 : ℚ) ^ (-46 : Int) := by
    rw [zpow_neg]
    norm_num
    ring
  have hexact : mulF64 128 (ml.Log 2) = (m : ℚ) / ((2 ^ 46 : Nat) : ℚ) := by
    unfold mulF64
    rw [hm, hprod, roundF64_exact m (-46) (by rw [abs_of_nonneg (by omega)]; omega) (by norm_num)]
    rw [zpow_neg]
    norm_num
    ring
  have hfloor : ⌊(m : ℚ) / ((2 ^ 46 : Nat) : ℚ)⌋ = 88 := by
    rw [Rat.floor_intCast_div_natCast]
    omega
  have hnn : (0 : ℚ) ≤ (m : ℚ) / ((2 ^ 46 : Nat) : ℚ) := by
    have : (0 : ℚ) ≤ (m : ℚ) := by
      have : (0 : Int) ≤ m := by omega
      exact_mod_cast this
    positivity
  unfold truncToInt64
  rw [hexact]
  simp only [if_pos hnn, hfloor]
  rw [if_pos (by decide)]

/-- The number of hints lies between 88 and `2^33`. -/
theorem nHints_bounds (n : Nat) (h1 : 1 ≤ n) (h2 : n < 2 ^ 52) :
    88 ≤ 88 * n / Nat.sqrt n ∧ 88 * n / Nat.sqrt n < 2 ^ 33 := by
  have hKpos : 0 < Nat.sqrt n := Nat.sqrt_pos.mpr (by omega)
  have hKle : Nat.sqrt n ≤ n := Nat.sqrt_le_self n
  have hK26 : Nat.sqrt n < 2 ^ 26 := by
    rw [Nat.sqrt_lt]
    calc n < 2 ^ 52 := h2
      _ = 2 ^ 26 * 2 ^ 26 := by norm_num
  have hadd := Nat.sqrt_le_add n
  constructor
  · rw [Nat.le_div_iff_mul_le hKpos]
    omega
  · rw [Nat.div_lt_iff_lt_mul hKpos]
    generalize Nat.sqrt n = K at hKpos hKle hK26 hadd
    have h3 : 88 * n ≤ 88 * (K * K + K + K) := Nat.mul_le_mul_left 88 hadd
    have h4 : 88 * (K * K + K + K) = (88 * K + 176) * K := by ring
    have h5 : (88 * K + 176) * K < 2 ^ 33 * K :=
      Nat.mul_lt_mul_of_pos_right (by omega) hKpos
    omega

/-- `int(math.Log2(float64(x)))` is the integer part of the binary logarithm wherever
`math.Log2` does not cross an integer. -/
theorem bitsPerKey_eq (pf : Platform) (ml : MathLib) (x : Nat) (hx : 0 < x) (hx53 : x < 2 ^ 53)
    (hLog2 : (Nat.log 2 x : ℚ) ≤ ml.Log2 x ∧ ml.Log2 x < (Nat.log 2 x : ℚ) + 1) :
    truncToInt64 pf (ml.Log2 (float64OfInt (x : Int))) = (Nat.log 2 x : Int) := by
  rw [float64OfInt_natCast x hx53]
  have hnn : (0 : ℚ) ≤ ml.Log2 x := le_trans (by positivity) hLog2.1
  have hfloor : ⌊ml.Log2 x⌋ = (Nat.log 2 x : Int) := by
    rw [Int.floor_eq_iff]
    exact ⟨by exact_mod_cast hLog2.1, by exact_mod_cast hLog2.2⟩
  have hlog : Nat.log 2 x < 53 := Nat.log_lt_of_lt_pow (by omega) hx53
  have hin : inInt64 (Nat.log 2 x : Int) := by
    unfold inInt64
    constructor <;> omega
  unfold truncToInt64
  simp only [if_pos hnn, hfloor, if_pos hin]

/-- The ceiling of an eighth is the quotient after adding 7. -/
theorem ceil_div_eight (a : Nat) : ⌈((a : Nat) : ℚ) / 8⌉ = (((a + 7) / 8 : Nat) : Int) := by
  rw [Int.ceil_eq_iff]
  have h1 : 8 * ((a + 7) / 8) ≤ a + 7 := Nat.mul_div_le _ _
  have h2 : a + 7 < 8 * ((a + 7) / 8) + 8 := by omega
  have h1' : (8 : ℚ) * (((a + 7) / 8 : Nat) : ℚ) ≤ (a : ℚ) + 7 := by exact_mod_cast h1
  have h2' : (a : ℚ) + 7 < 8 * (((a + 7) / 8 : Nat) : ℚ) + 8 := by exact_mod_cast h2
  have h3 : (a : ℚ) ≤ 8 * (((a + 7) / 8 : Nat) : ℚ) := by
    have : a ≤ 8 * ((a + 7) / 8) := by omega
    exact_mod_cast this
  rw [Int.cast_natCast]
  generalize (((a + 7) / 8 : Nat) : ℚ) = q at h1' h2' h3 ⊢
  constructor <;> linarith

/-- The storage estimate of the specification, in integer arithmetic. -/
theorem specStorageBytes_eq (numRows rowLen : Nat) :
    specStorageBytes numRows rowLen =
      (((Nat.log 2 (88 * numRows / Nat.sqrt numRows) * numRows + 7) / 8 +
        88 * numRows / Nat.sqrt numRows * rowLen : Nat) : Int) := by
  unfold specStorageBytes specBitsPerKey specNHints specSetSize
  rw [ceil_div_eight]
  push_cast
  rfl

/-- The estimate computed by the code, for a row count below `2^52` and a `math`
library that is accurate where it is used. -/
theorem clientStorageBytes_eq (pf : Platform) (ml : MathLib) (numRows rowLen : Nat)
    (h1 : 1 ≤ numRows) (h2 : numRows < 2 ^ 52)
    (hLog : ∃ m : Int, ml.Log 2 = (m : ℚ) / 2 ^ 53 ∧ 88 * 2 ^ 46 ≤ m ∧ m < 89 * 2 ^ 46)
    (hLog2 : ∀ x : Nat, 0 < x → x < 2 ^ 33 →
      (Nat.log 2 x : ℚ) ≤ ml.Log2 x ∧ ml.Log2 x < (Nat.log 2 x : ℚ) + 1)
    (hfit : specStorageBytes numRows rowLen < 2 ^ 63) :
    clientStorageBytes pf ml (numRows : Int) (rowLen : Int) =
      .ok (specStorageBytes numRows rowLen) := by
  obtain ⟨hH88, hH33⟩ := nHints_bounds numRows h1 h2
  have hKpos : 0 < Nat.sqrt numRows := Nat.sqrt_pos.mpr (by omega)
  have hHpos : 0 < 88 * numRows / Nat.sqrt numRows := lt_of_lt_of_le (by norm_num) hH88
  have hb : Nat.log 2 (88 * numRows / Nat.sqrt numRows) < 33 :=
    Nat.log_lt_of_lt_pow (Nat.pos_iff_ne_zero.mp hHpos) hH33
  have hset : truncToInt64 pf (sqrtF64 (float64OfInt (numRows : Int))) =
      (Nat.sqrt numRows : Int) := setSize_eq pf numRows h2
  have hmul : truncToInt64 pf (mulF64 128 (ml.Log 2)) = 88 := numHintsMultiplier_eq pf ml hLog
  have hbits := bitsPerKey_eq pf ml _ hHpos (lt_trans hH33 (by norm_num)) (hLog2 _ hHpos hH33)
  have hcast : (88 * (numRows : Int)) / (Nat.sqrt numRows : Int) =
      ((88 * numRows / Nat.sqrt numRows : Nat) : Int) := by
    push_cast
    rfl
  rw [specStorageBytes_eq] at hfit ⊢
  clear hLog hLog2
  generalize Nat.sqrt numRows = K at *
  generalize 88 * numRows / K = H at *
  generalize Nat.log 2 H = b at *
  have hfit' : (b * numRows + 7) / 8 + H * rowLen < 2 ^ 63 := by exact_mod_cast hfit
  have hn52 : (numRows : Int) < 2 ^ 52 := by exact_mod_cast h2
  have hnH : wrap64 (Int.tdiv (wrap64 (88 * (numRows : Int))) (K : Int)) = (H : Int) := by
    have hin1 : inInt64 (88 * (numRows : Int)) := by
      unfold inInt64
      constructor <;> omega
    rw [wrap64_of_inInt64 hin1, Int.tdiv_eq_ediv (by positivity) (by positivity), hcast]
    apply wrap64_of_inInt64
    unfold inInt64
    have : (H : Int) < 2 ^ 33 := by exact_mod_cast hH33
    constructor <;> omega
  have hbn : b * numRows < 33 * 2 ^ 52 := by
    have hb32 : b ≤ 32 := by omega
    calc b * numRows ≤ 32 * numRows := Nat.mul_le_mul_right _ hb32
      _ < 33 * 2 ^ 52 := by omega
  have hw1 : wrap64 ((b : Int) * (numRows : Int)) = ((b * numRows : Nat) : Int) := by
    rw [← Nat.cast_mul]
    exact wrap64_natCast _ (lt_trans hbn (by norm_num))
  have hw2 : wrap64 (((b * numRows : Nat) : Int) + 7) = ((b * numRows + 7 : Nat) : Int) := by
    have hc : ((b * numRows : Nat) : Int) + 7 = ((b * numRows + 7 : Nat) : Int) := by
      push_cast
      rfl
    rw [hc]
    exact wrap64_natCast _ (lt_trans (Nat.add_lt_add_right hbn 7) (by norm_num))
  have hdiv8 : Int.tdiv ((b * numRows + 7 : Nat) : Int) 8 =
      (((b * numRows + 7) / 8 : Nat) : Int) := by
    rw [Int.tdiv_eq_ediv (by positivity) (by norm_num)]
    push_cast
    rfl
  have hHl : H * rowLen < 2 ^ 63 := lt_of_le_of_lt (Nat.le_add_left _ _) hfit'
  have hfixed : wrap64 ((H : Int) * (rowLen : Int)) = ((H * rowLen : Nat) : Int) := by
    rw [← Nat.cast_mul]
    exact wrap64_natCast _ hHl
  have htotal : wrap64 ((((b * numRows + 7) / 8 : Nat) : Int) + ((H * rowLen : Nat) : Int)) =
      (((b * numRows + 7) / 8 + H * rowLen : Nat) : Int) := by
    rw [← Nat.cast_add]
    exact wrap64_natCast _ hfit'
  have hn0 : ¬ ((numRows : Int) < 0) := not_lt.mpr (Int.natCast_nonneg _)
  have hK0 : ¬ ((K : Int) = 0) := by
    intro h
    have : K = 0 := by exact_mod_cast h
    exact absurd this (Nat.pos_iff_ne_zero.mp hKpos)
  have hH0 : ¬ ((H : Int) < 0) := not_lt.mpr (Int.natCast_nonneg _)
  have hH1 : ¬ ((H : Int) = 0) := by
    intro h
    have : H = 0 := by exact_mod_cast h
    exact absurd this (Nat.pos_iff_ne_zero.mp hHpos)
  unfold clientStorageBytes
  simp only [if_neg hn0, hset, hmul, if_neg hK0, hnH, if_neg hH0, if_neg hH1, hbits, hw1, hw2,
    hdiv8, hfixed, htotal]

/-- The multiplier of the hint count: `floor(128 * ln 2) = 88`. -/
theorem floor_128_ln2 : ⌊128 * Real.log 2⌋ = 88 := by
  rw [Int.floor_eq_iff]
  have h1 := Real.log_two_gt_d9
  have h2 := Real.log_two_lt_d9
  constructor
  · push_cast
    linarith
  · push_cast
    linarith

/-! ### The storage estimate: the theorem of the specification and its limits -/

/-- The example `math` library meets the two accuracy conditions. -/
theorem mathExact_accurate :
    (∃ m : Int, mathExact.Log 2 = (m : ℚ) / 2 ^ 53 ∧ 88 * 2 ^ 46 ≤ m ∧ m < 89 * 2 ^ 46) ∧
    (∀ x : Nat, 0 < x → x < 2 ^ 33 →
      (Nat.log 2 x : ℚ) ≤ mathExact.Log2 x ∧ mathExact.Log2 x < (Nat.log 2 x : ℚ) + 1) := by
  constructor
  · refine ⟨6243314768165359, ?_, by norm_num, by norm_num⟩
    simp only [mathExact, if_true]
    norm_num
  · intro x _ _
    simp only [mathExact, Nat.floor_natCast]
    constructor
    · exact le_refl _
    · linarith

/-- The number of hints of the specification, unfolded. -/
theorem specNHints_def (n : Nat) : specNHints n = 88 * n / specSetSize n := rfl

/-- The bits per key of the specification, unfolded. -/
theorem specBitsPerKey_def (n : Nat) : specBitsPerKey n = Nat.log 2 (specNHints n) := rfl

/-- The integer square root of one million. -/
theorem sqrt_million : Nat.sqrt 1000000 = 1000 :=
  (Nat.eq_sqrt.mpr ⟨by norm_num, by norm_num⟩).symm

/-- The integer binary logarithm of 88000. -/
theorem log_88000 : Nat.log 2 88000 = 16 :=
  Nat.log_eq_of_pow_le_of_lt_pow (by norm_num) (by norm_num)

/-- The values of the specification for one million rows of 64 bytes. -/
theorem spec_values_million :
    specSetSize 1000000 = 1000 ∧ specNHints 1000000 = 88000 ∧ specBitsPerKey 1000000 = 16 ∧
    specStorageBytes 1000000 64 = 7632000 := by
  have h1 : specSetSize 1000000 = 1000 := sqrt_million
  have h2 : specNHints 1000000 = 88000 := by
    rw [specNHints_def, h1]
  have h3 : specBitsPerKey 1000000 = 16 := by
    rw [specBitsPerKey_def, h2]
    exact log_88000
  refine ⟨h1, h2, h3, ?_⟩
  rw [specStorageBytes_eq]
  have h2' : 88 * 1000000 / Nat.sqrt 1000000 = 88000 := by
    rw [sqrt_million]
  rw [h2', log_88000]
  norm_num

/-! ### The storage estimate at `2^54 - 1` rows -/

/-- A half-integer above an odd integer is rounded up, to the even neighbour. -/
theorem roundHalfEven_half_odd (k : Int) (hk : k % 2 = 1) :
    roundHalfEven (((2 * k + 1 : Int) : ℚ) / 2) = k + 1 := by
  have hfloor : ⌊((2 * k + 1 : Int) : ℚ) / 2⌋ = k := by
    rw [Int.floor_eq_iff]
    push_cast
    constructor <;> linarith
  unfold roundHalfEven
  simp only [hfloor]
  have hfrac : ((2 * k + 1 : Int) : ℚ) / 2 - (k : ℚ) = 1 / 2 := by
    push_cast
    ring
  rw [hfrac]
  simp only [lt_self_iff_false, if_false]
  rw [if_neg (by omega)]

/-- `float64(2^54 - 1)` is `2^54`: the odd integer lies half-way between two `float64`
values and is rounded to the one with the even significand. -/
theorem float64OfInt_2_54_sub_1 :
    float64OfInt 18014398509481983 = 18014398509481984 := by
  have hlog : Int.log 2 |((18014398509481983 : Int) : ℚ)| = 53 := by
    rw [abs_of_pos (by norm_num)]
    have hc : ((18014398509481983 : Int) : ℚ) = ((18014398509481983 : Nat) : ℚ) := by norm_num
    rw [hc, Int.log_natCast]
    have := Nat.log_eq_of_pow_le_of_lt_pow (b := 2) (m := 53) (n := 18014398509481983)
      (by norm_num) (by norm_num)
    exact_mod_cast this
  have hne : ((18014398509481983 : Int) : ℚ) ≠ 0 := by norm_num
  have hmax : Max.max (53 : Int) (-1022) = 53 := max_eq_left (by norm_num)
  have hulp : (2 : ℚ) ^ ((53 : Int) - 52) = 2 := by norm_num
  have hq : ((18014398509481983 : Int) : ℚ) / 2 =
      ((2 * 9007199254740991 + 1 : Int) : ℚ) / 2 := by norm_num
  unfold float64OfInt roundF64
  rw [if_neg hne]
  simp only [hlog, hmax, hulp]
  rw [hq, roundHalfEven_half_odd 9007199254740991 (by decide)]
  norm_num

/-- `math.Sqrt(2^54)` is `2^27`. -/
theorem sqrtF64_2_54 : sqrtF64 18014398509481984 = 134217728 := by
  have hlog : Int.log 2 (18014398509481984 : ℚ) = 54 := by
    have hc : (18014398509481984 : ℚ) = ((18014398509481984 : Nat) : ℚ) := by norm_num
    rw [hc, Int.log_natCast]
    have := Nat.log_eq_of_pow_le_of_lt_pow (b := 2) (m := 54) (n := 18014398509481984)
      (by norm_num) (by norm_num)
    exact_mod_cast this
  have hpos : ¬ ((18014398509481984 : ℚ) ≤ 0) := by norm_num
  have hh : (54 : Int) / 2 - 52 = -25 := by decide
  have hulp : (2 : ℚ) ^ (-25 : Int) = 1 / 33554432 := by
    rw [zpow_neg]
    norm_num
  have hy : (18014398509481984 : ℚ) / (1 / 33554432 * (1 / 33554432)) =
      ((20282409603651670423947251286016 : Nat) : ℚ) := by norm_num
  have hsqrt : Nat.sqrt 20282409603651670423947251286016 = 4503599627370496 :=
    (Nat.eq_sqrt.mpr ⟨by norm_num, by norm_num⟩).symm
  unfold sqrtF64
  rw [if_neg hpos]
  simp only [hlog, hh, hulp, hy, Nat.floor_natCast, hsqrt]
  norm_num

/-- The estimate computed by the code for `2^54 - 1` rows of one byte. -/
theorem clientStorageBytes_2_54_sub_1 :
    clientStorageBytes amd64 mathExact 18014398509481983 1 = .ok 74309405662773243 := by
  have hn0 : ¬ ((18014398509481983 : Int) < 0) := by decide
  have hset : truncToInt64 amd64 (134217728 : ℚ) = 134217728 := by
    have h := truncToInt64_intCast amd64 134217728 (by decide)
    rw [show ((134217728 : Int) : ℚ) = (134217728 : ℚ) by norm_num] at h
    exact h
  have hmul : truncToInt64 amd64 (mulF64 128 (mathExact.Log 2)) = 88 :=
    numHintsMultiplier_eq amd64 mathExact mathExact_accurate.1
  have hK0 : ¬ ((134217728 : Int) = 0) := by decide
  have hnH : wrap64 (Int.tdiv (wrap64 (88 * 18014398509481983)) 134217728) = 11811160063 := by
    decide
  have hH0 : ¬ ((11811160063 : Int) < 0) := by decide
  have hH1 : ¬ ((11811160063 : Int) = 0) := by decide
  have hlog : Nat.log 2 11811160063 = 33 :=
    Nat.log_eq_of_pow_le_of_lt_pow (by norm_num) (by norm_num)
  have hbits : truncToInt64 amd64 (mathExact.Log2 (float64OfInt 11811160063)) = 33 := by
    have h := bitsPerKey_eq amd64 mathExact 11811160063 (by norm_num) (by norm_num)
      (by
        simp only [mathExact, Nat.floor_natCast]
        constructor
        · exact le_refl _
        · linarith)
    rw [hlog] at h
    exact_mod_cast h
  have hrest : wrap64 (Int.tdiv (wrap64 (wrap64 (33 * 18014398509481983) + 7)) 8 +
      wrap64 (11811160063 * 1)) = 74309405662773243 := by decide
  unfold clientStorageBytes
  simp only [if_neg hn0, float64OfInt_2_54_sub_1, sqrtF64_2_54, hset, hmul, if_neg hK0, hnH,
    if_neg hH0, if_neg hH1, hbits, hrest]

/-- The estimate of the specification for `2^54 - 1` rows of one byte. -/
theorem specStorageBytes_2_54_sub_1 :
    specSetSize 18014398509481983 = 134217727 ∧
    specStorageBytes 18014398509481983 1 = 74309405662773332 := by
  have hsqrt : Nat.sqrt 18014398509481983 = 134217727 :=
    (Nat.eq_sqrt.mpr ⟨by norm_num, by norm_num⟩).symm
  have hH : 88 * 18014398509481983 / Nat.sqrt 18014398509481983 = 11811160152 := by
    rw [hsqrt]
  have hlog : Nat.log 2 11811160152 = 33 :=
    Nat.log_eq_of_pow_le_of_lt_pow (by norm_num) (by norm_num)
  refine ⟨hsqrt, ?_⟩
  rw [specStorageBytes_eq, hH, hlog]
  norm_num

/-- C6, counterexample. For `numRows = 2^54 - 1` and `rowLen = 1` no machine integer
overflows, `float64(numRows)` is `2^54`, whose square root is `2^27`, one more than
`floor(√numRows) = 2^27 - 1`; the code computes 74309405662773243 and the formula of the
specification gives 74309405662773332. -/
theorem C6_estimate_differs_at_2_54_sub_1 :
    (18014398509481983 : Int) = 2 ^ 54 - 1 ∧
    (88 * 18014398509481983 : Int) < 2 ^ 63 ∧
    specStorageBytes 18014398509481983 1 < 2 ^ 63 ∧
    clientStorageBytes amd64 mathExact 18014398509481983 1 ≠
      .ok (specStorageBytes 18014398509481983 1) := by
  refine ⟨by norm_num, by norm_num, ?_, ?_⟩
  · rw [specStorageBytes_2_54_sub_1.2]
    norm_num
  · rw [clientStorageBytes_2_54_sub_1, specStorageBytes_2_54_sub_1.2]
    intro h
    injection h with h
    exact absurd h (by decide)

/-- C6, amended. For every `numRows` with `1 ≤ numRows < 2^52` and every `rowLen ≥ 0`
for which the estimate fits in 64 bits, and a `math` library whose `Log(2)` is a
`float64` in `[88/128, 89/128)` and whose `Log2` does not cross an integer on the
integers below `2^33`, the client storage estimate computed in `RunBenchmark` is
`ceil(bitsPerKey * numRows / 8) + nHints * rowLen` with `setSize = floor(√numRows)`,
`nHints = floor(88 * numRows / setSize)`, `bitsPerKey = floor(log2(nHints))`; and
`88 = floor(128 * ln 2)`. -/
theorem C6_client_storage_estimate (pf : Platform) (ml : MathLib) (numRows rowLen : Nat)
    (h1 : 1 ≤ numRows) (h2 : numRows < 2 ^ 52)
    (hLog : ∃ m : Int, ml.Log 2 = (m : ℚ) / 2 ^ 53 ∧ 88 * 2 ^ 46 ≤ m ∧ m < 89 * 2 ^ 46)
    (hLog2 : ∀ x : Nat, 0 < x → x < 2 ^ 33 →
      (Nat.log 2 x : ℚ) ≤ ml.Log2 x ∧ ml.Log2 x < (Nat.log 2 x : ℚ) + 1)
    (hfit : specStorageBytes numRows rowLen < 2 ^ 63) :
    clientStorageBytes pf ml (numRows : Int) (rowLen : Int) =
      .ok (specStorageBytes numRows rowLen) ∧
    ⌊128 * Real.log 2⌋ = 88 :=
  ⟨clientStorageBytes_eq pf ml numRows rowLen h1 h2 hLog hLog2 hfit, floor_128_ln2⟩

/-- C6, amended, for one million rows of 64 bytes: `setSize` 1000, `nHints` 88000,
`bitsPerKey` 16 and 7632000 bytes. -/
theorem C6_client_storage_estimate_witness :
    clientStorageBytes amd64 mathExact 1000000 64 = .ok 7632000 ∧
    specSetSize 1000000 = 1000 ∧ specNHints 1000000 = 88000 ∧ specBitsPerKey 1000000 = 16 ∧
    specStorageBytes 1000000 64 = 7632000 := by
  have h := (C6_client_storage_estimate amd64 mathExact 1000000 64 (by norm_num) (by norm_num)
    mathExact_accurate.1 mathExact_accurate.2
    (by rw [spec_values_million.2.2.2]; norm_num)).1
  rw [spec_values_million.2.2.2] at h
  exact ⟨by exact_mod_cast h, spec_values_million⟩

/-! ### `average` -/

/-- Zero is in range. -/
theorem wrap64_zero : wrap64 0 = 0 := by decide

/-- The accumulated sum is the exact sum whenever the exact sum fits in 64 bits. -/
theorem sumLoop_exact (vs : List Int) (h : inInt64 vs.sum) : sumLoop 0 vs = vs.sum := by
  have := sumLoop_eq vs 0
  rw [wrap64_zero, zero_add, wrap64_of_inInt64 h] at this
  exact this

/-- C7, counterexample. On the samples `[-1, 0]` the sum is -1 and `average` returns 0,
not the floor -1 of -1/2. -/
theorem C7_average_negative_sum_not_floor :
    average [-1, 0] = 0 ∧ ⌊(((-1 : Int) + 0 : Int) : ℚ) / ((2 : Nat) : ℚ)⌋ = -1 ∧
    average [-1, 0] ≠ ⌊(((-1 : Int) + 0 : Int) : ℚ) / ((2 : Nat) : ℚ)⌋ := by
  have h1 : average [-1, 0] = 0 := by decide
  have h2 : ⌊(((-1 : Int) + 0 : Int) : ℚ) / ((2 : Nat) : ℚ)⌋ = -1 := by
    rw [Rat.floor_intCast_div_natCast]
    decide
  refine ⟨h1, h2, ?_⟩
  rw [h1, h2]
  decide

/-- C7, amended. For every non-empty sequence of samples whose sum fits in 64 bits,
`average` returns the quotient of the sum by the number of samples truncated toward
zero: the floor of the exact quotient when the sum is not negative, its ceiling when the
sum is negative.  On the empty sequence it returns 0, and on `[10, 20, 30]` it
returns 20. -/
theorem C7_average_truncates (vs : List Int) (hne : vs ≠ []) (hsum : inInt64 vs.sum) :
    average vs = Int.tdiv vs.sum (vs.length : Int) ∧
    (0 ≤ vs.sum → average vs = ⌊(vs.sum : ℚ) / (vs.length : ℚ)⌋) ∧
    (vs.sum < 0 → average vs = ⌈(vs.sum : ℚ) / (vs.length : ℚ)⌉) ∧
    average [] = 0 ∧ average [10, 20, 30] = 20 := by
  have hlen : vs.length ≠ 0 := fun h => hne (List.length_eq_zero.mp h)
  have havg : average vs = Int.tdiv vs.sum (vs.length : Int) := by
    unfold average
    rw [if_neg hlen, sumLoop_exact vs hsum]
  refine ⟨havg, ?_, ?_, by decide, by decide⟩
  · intro h0
    rw [havg, Rat.floor_intCast_div_natCast, Int.tdiv_eq_ediv h0 (by positivity)]
  · intro hneg
    have hceil : ⌈(vs.sum : ℚ) / (vs.length : ℚ)⌉ = -⌊((-vs.sum : Int) : ℚ) / (vs.length : ℚ)⌋ := by
      rw [← Int.ceil_neg]
      congr 1
      push_cast
      ring
    rw [havg, hceil, Rat.floor_intCast_div_natCast,
      ← Int.tdiv_eq_ediv (by omega) (by positivity), Int.neg_tdiv, neg_neg]

/-- C7, amended, on the samples `[7, -2]`: the sum 5 is halved to 2. -/
theorem C7_average_truncates_witness :
    average [7, -2] = Int.tdiv (7 + (-2 + 0)) 2 ∧
    (0 ≤ ([7, -2] : List Int).sum →
      average [7, -2] = ⌊((([7, -2] : List Int).sum : Int) : ℚ) / (([7, -2] : List Int).length : ℚ)⌋) ∧
    (([7, -2] : List Int).sum < 0 →
      average [7, -2] = ⌈((([7, -2] : List Int).sum : Int) : ℚ) / (([7, -2] : List Int).length : ℚ)⌉) ∧
    average [] = 0 ∧ average [10, 20, 30] = 20 :=
  C7_average_truncates [7, -2] (by decide) (by decide)

/-! ### The whole run -/

/-- A run returns a record only through the online phase, whose record it carries. -/
theorem RunBenchmark_ok_online (pf : Platform) (ml : MathLib) (gw : Gateway)
    (numRows rowLen numQueries : Int) (pirType : String) (r : BenchmarkResult)
    (h : RunBenchmark pf ml gw numRows rowLen numQueries pirType = .ok r) :
    onlinePhase gw.query numRows numQueries = .ok r.Online := by
  unfold RunBenchmark at h
  split at h
  · exact absurd h (by simp)
  · split at h
    · exact absurd h (by simp)
    · split at h
      · exact absurd h (by simp)
      · exact absurd h (by simp)
      · split at h
        · exact absurd h (by simp)
        · exact absurd h (by simp)
        · rename_i online honline
          injection h with h
          rw [← h]
          exact honline

/-- A run whose driver starts, whose storage estimate is computed and whose online phase
returns a record returns a record with that online group. -/
theorem RunBenchmark_ok_of_parts (pf : Platform) (ml : MathLib) (gw : Gateway)
    (numRows rowLen numQueries : Int) (pirType : String) (storage : Int) (online : OnlineRecord)
    (hd : gw.newDriverErr = none) (hc : gw.configureErr = none)
    (hs : clientStorageBytes pf ml numRows rowLen = .ok storage)
    (ho : onlinePhase gw.query numRows numQueries = .ok online) :
    ∃ r, RunBenchmark pf ml gw numRows rowLen numQueries pirType = .ok r ∧ r.Online = online := by
  unfold RunBenchmark
  simp only [hd, hc, hs, ho]
  exact ⟨_, rfl, rfl⟩

/-- The example gateway, one million rows of 64 bytes: the storage estimate is
computed. -/
theorem clientStorageBytes_million :
    clientStorageBytes amd64 mathExact 1000000 64 = .ok 7632000 := by
  have h := clientStorageBytes_eq amd64 mathExact 1000000 64 (by norm_num) (by norm_num)
    mathExact_accurate.1 mathExact_accurate.2 (by rw [spec_values_million.2.2.2]; norm_num)
  rw [spec_values_million.2.2.2] at h
  exact_mod_cast h

/-- With a negative requested count the loop body never runs and the online phase
returns a record that carries the negative count. -/
theorem onlinePhase_negative (query : Nat → QueryOutcome) (numRows numQueries : Int)
    (hneg : numQueries < 0) :
    ∃ r, onlinePhase query numRows numQueries = .ok r ∧ r.NumQueries = numQueries := by
  have hz : numQueries.toNat = 0 := by omega
  unfold onlinePhase
  rw [hz, onlineLoop]
  simp only
  rw [if_neg (by omega)]
  exact ⟨_, rfl, rfl⟩

/-- A zero count stops the online phase in the division `totalOnlineBytes / numQueries`,
after a loop that does not run. -/
theorem onlinePhase_zero_panics (query : Nat → QueryOutcome) (numRows : Int) :
    ∃ msg, onlinePhase query numRows 0 = .panic msg := by
  unfold onlinePhase
  rw [show (0 : Int).toNat = 0 from rfl, onlineLoop]
  exact ⟨_, rfl⟩

/-- C8, counterexample. With the requested count -1 (the flag `-queries=-1`) the run
returns a record whose `Online.NumQueries` is -1. -/
theorem C8_negative_count_is_reported :
    ∃ r, RunBenchmark amd64 mathExact gatewayCorrect 1000000 64 (-1) "TreePIR" = .ok r ∧
      r.Online.NumQueries = -1 ∧ ¬ (1 ≤ r.Online.NumQueries) := by
  obtain ⟨o, ho, hq⟩ := onlinePhase_negative gatewayCorrect.query 1000000 (-1) (by decide)
  obtain ⟨r, hr, hro⟩ := RunBenchmark_ok_of_parts amd64 mathExact gatewayCorrect 1000000 64 (-1)
    "TreePIR" 7632000 o rfl rfl clientStorageBytes_million ho
  refine ⟨r, hr, ?_, ?_⟩
  · rw [hro, hq]
  · rw [hro, hq]
    decide

/-- C8, amended. For every requested query count and every gateway behaviour, whenever
`RunBenchmark` returns a record, the record's `Online.NumQueries` is the requested count
and the requested count is not zero; so `Online.NumQueries ≥ 1` whenever the requested
count is at least 1. -/
theorem C8_record_carries_requested_count (pf : Platform) (ml : MathLib) (gw : Gateway)
    (numRows rowLen numQueries : Int) (pirType : String) (r : BenchmarkResult)
    (h : RunBenchmark pf ml gw numRows rowLen numQueries pirType = .ok r) :
    r.Online.NumQueries = numQueries ∧ numQueries ≠ 0 ∧
    (1 ≤ numQueries → 1 ≤ r.Online.NumQueries) := by
  have ho := RunBenchmark_ok_online pf ml gw numRows rowLen numQueries pirType r h
  obtain ⟨h1, h2⟩ := onlinePhase_ok_iff gw.query numRows numQueries r.Online ho
  exact ⟨h1, h2, fun hq => by rw [h1]; exact hq⟩

/-- C8, amended, on a run of three queries against the gateway that always returns
the correct row. -/
theorem C8_record_carries_requested_count_witness :
    ∃ r, RunBenchmark amd64 mathExact gatewayCorrect 1000000 64 3 "TreePIR" = .ok r ∧
      r.Online.NumQueries = 3 ∧ (3 : Int) ≠ 0 ∧ ((1 : Int) ≤ 3 → 1 ≤ r.Online.NumQueries) := by
  obtain ⟨o, ho, _⟩ := onlinePhase_ok_of_all_pass gatewayCorrect.query 1000000 3 (by decide)
    (by decide) (fun i _ => stubCorrect_hasFirst i) (fun i _ => stubCorrect_pass i)
  obtain ⟨r, hr, _⟩ := RunBenchmark_ok_of_parts amd64 mathExact gatewayCorrect 1000000 64 3
    "TreePIR" 7632000 o rfl rfl clientStorageBytes_million ho
  exact ⟨r, hr, C8_record_carries_requested_count amd64 mathExact gatewayCorrect 1000000 64 3
    "TreePIR" r hr⟩

/-! ### The pattern of `ParseSize` and the form of the specification -/

/-- A string accepted by the tail `[KMGT]?B?$` is an optional letter among K, M, G, T
followed by an optional B. -/
theorem matchUnit_form (u : List Char) (h : matchUnit u = true) :
    ∃ k b : List Char, u = k ++ b ∧
      (k = [] ∨ k = ['K'] ∨ k = ['M'] ∨ k = ['G'] ∨ k = ['T']) ∧ (b = [] ∨ b = ['B']) := by
  unfold matchUnit at h
  cases u with
  | nil => exact ⟨[], [], rfl, Or.inl rfl, Or.inl rfl⟩
  | cons c t =>
    simp only at h
    by_cases hc : (c == 'K' || c == 'M' || c == 'G' || c == 'T') = true
    · rw [if_pos hc] at h
      have hk : [c] = ['K'] ∨ [c] = ['M'] ∨ [c] = ['G'] ∨ [c] = ['T'] := by
        simp only [Bool.or_eq_true, beq_iff_eq] at hc
        rcases hc with ((h1 | h1) | h1) | h1 <;> simp [h1]
      cases t with
      | nil => exact ⟨[c], [], by simp, Or.inr hk, Or.inl rfl⟩
      | cons d t' =>
        simp only at h
        by_cases hd : (d == 'B') = true
        · rw [if_pos hd] at h
          have ht : t' = [] := by simpa using h
          have hd' : d = 'B' := by simpa using hd
          exact ⟨[c], ['B'], by simp [ht, hd'], Or.inr hk, Or.inr rfl⟩
        · rw [if_neg hd] at h
          simp at h
    · rw [if_neg hc] at h
      simp only at h
      by_cases hd : (c == 'B') = true
      · rw [if_pos hd] at h
        have ht : t = [] := by simpa using h
        have hd' : c = 'B' := by simpa using hd
        exact ⟨[], ['B'], by simp [ht, hd'], Or.inl rfl, Or.inr rfl⟩
      · rw [if_neg hd] at h
        simp at h

/-- The ten strings of an optional letter among K, M, G, T and an optional B are
accepted by the tail of the pattern, and none starts with what may precede it. -/
theorem unit_form_ok (k b : List Char)
    (hk : k = [] ∨ k = ['K'] ∨ k = ['M'] ∨ k = ['G'] ∨ k = ['T']) (hb : b = [] ∨ b = ['B']) :
    matchUnit (k ++ b) = true ∧
    (∀ c ∈ (k ++ b).head?, isReSpace c = false ∧ isDigit c = false ∧ c ≠ '.') := by
  rcases hk with h | h | h | h | h <;> rcases hb with h' | h' <;> subst h <;> subst h' <;> decide

/-- The elements taken by `takeWhile` satisfy the predicate. -/
theorem mem_takeWhile_imp' {p : Char → Bool} {l : List Char} {c : Char}
    (h : c ∈ l.takeWhile p) : p c = true :=
  List.mem_takeWhile_imp h

/-- Whatever the pattern matches has the form of the specification. -/
theorem sizeForm_of_findStringSubmatch (s : List Char) (p : List Char × List Char)
    (h : FindStringSubmatch s = some p) : sizeForm s := by
  unfold FindStringSubmatch at h
  simp only at h
  have hsplit : s = s.takeWhile isDigit ++ s.dropWhile isDigit :=
    (List.takeWhile_append_dropWhile isDigit s).symm
  have hdig : ∀ c ∈ s.takeWhile isDigit, isDigit c = true := fun c hc => mem_takeWhile_imp' hc
  by_cases hemp : (s.takeWhile isDigit).isEmpty = true
  · rw [if_pos hemp] at h
    exact absurd h (by simp)
  rw [if_neg hemp] at h
  have hne : s.takeWhile isDigit ≠ [] := by
    intro h0
    rw [h0] at hemp
    exact hemp rfl
  generalize hds : s.takeWhile isDigit = ds at h hsplit hdig hne
  generalize hr1 : s.dropWhile isDigit = r1 at h hsplit
  -- the tail after the numeral: white space, then the unit
  have htail : ∀ r2 : List Char, matchUnit (r2.dropWhile isReSpace) = true →
      ∃ ws k b : List Char, r2 = ws ++ k ++ b ∧ (∀ c ∈ ws, isReSpace c = true) ∧
        (k = [] ∨ k = ['K'] ∨ k = ['M'] ∨ k = ['G'] ∨ k = ['T']) ∧ (b = [] ∨ b = ['B']) := by
    intro r2 hm
    obtain ⟨k, b, hkb, hk, hb⟩ := matchUnit_form _ hm
    refine ⟨r2.takeWhile isReSpace, k, b, ?_, fun c hc => mem_takeWhile_imp' hc, hk, hb⟩
    rw [List.append_assoc, ← hkb]
    exact (List.takeWhile_append_dropWhile isReSpace r2).symm
  cases r1 with
  | nil =>
    simp only at h
    split_ifs at h with hm
    obtain ⟨ws, k, b, hr2, hws, hk, hb⟩ := htail [] hm
    refine ⟨ds, [], ws, k, b, ?_, hne, hdig, Or.inl rfl, hws, hk, hb⟩
    calc s = ds ++ [] := hsplit
      _ = ds ++ (ws ++ k ++ b) := by rw [← hr2]
      _ = ds ++ [] ++ ws ++ k ++ b := by simp
  | cons c t =>
    simp only at h
    by_cases hc : (c == '.' && !(t.takeWhile isDigit).isEmpty) = true
    · rw [if_pos hc] at h
      simp only at h
      split_ifs at h with hm
      obtain ⟨ws, k, b, hr2, hws, hk, hb⟩ := htail _ hm
      have hc1 : c = '.' := by
        simp only [Bool.and_eq_true, beq_iff_eq] at hc
        exact hc.1
      have hfs : t.takeWhile isDigit ≠ [] := by
        intro h0
        rw [h0] at hc
        simp at hc
      refine ⟨ds, '.' :: t.takeWhile isDigit, ws, k, b, ?_, hne, hdig,
        Or.inr ⟨t.takeWhile isDigit, hfs, fun c hc => mem_takeWhile_imp' hc, rfl⟩, hws, hk, hb⟩
      have ht : t = t.takeWhile isDigit ++ t.dropWhile isDigit :=
        (List.takeWhile_append_dropWhile isDigit t).symm
      calc s = ds ++ c :: t := hsplit
        _ = ds ++ '.' :: (t.takeWhile isDigit ++ t.dropWhile isDigit) := by rw [hc1, ← ht]
        _ = ds ++ '.' :: (t.takeWhile isDigit ++ (ws ++ k ++ b)) := by rw [hr2]
        _ = ds ++ '.' :: t.takeWhile isDigit ++ ws ++ k ++ b := by simp
    · rw [if_neg hc] at h
      simp only at h
      split_ifs at h with hm
      obtain ⟨ws, k, b, hr2, hws, hk, hb⟩ := htail _ hm
      refine ⟨ds, [], ws, k, b, ?_, hne, hdig, Or.inl rfl, hws, hk, hb⟩
      calc s = ds ++ c :: t := hsplit
        _ = ds ++ (ws ++ k ++ b) := by rw [hr2]
        _ = ds ++ [] ++ ws ++ k ++ b := by simp

/-- The pattern on `digits . digits ++ spaces ++ unit`. -/
theorem findStringSubmatch_fraction (ds fs w U : List Char) (hne : ds ≠ [])
    (hds : ∀ c ∈ ds, isDigit c = true) (hfne : fs ≠ []) (hfs : ∀ c ∈ fs, isDigit c = true)
    (hw : ∀ c ∈ w, isReSpace c = true) (hU : matchUnit U = true)
    (hUh : ∀ c ∈ U.head?, isReSpace c = false ∧ isDigit c = false ∧ c ≠ '.') :
    FindStringSubmatch (ds ++ '.' :: fs ++ w ++ U) = some (ds ++ '.' :: fs, U) := by
  have hhead : ∀ c ∈ (w ++ U).head?, isDigit c = false := by
    intro c hc
    cases w with
    | nil => exact (hUh c (by simpa using hc)).2.1
    | cons x t =>
      have : c = x := by simpa using hc.symm
      subst this
      exact (toUpperRune_reSpace id c (hw c (by simp))).2.2.1
  have hassoc : ds ++ '.' :: fs ++ w ++ U = ds ++ ('.' :: (fs ++ (w ++ U))) := by simp
  have htake : (ds ++ ('.' :: (fs ++ (w ++ U)))).takeWhile isDigit = ds := by
    rw [takeWhile_append_of_all _ _ _ hds,
      takeWhile_of_head _ _ (fun c hc => by
        have : c = '.' := by simpa using hc.symm
        rw [this]; decide)]
    simp
  have hdrop : (ds ++ ('.' :: (fs ++ (w ++ U)))).dropWhile isDigit = '.' :: (fs ++ (w ++ U)) := by
    rw [dropWhile_append_of_all _ _ _ hds,
      dropWhile_of_head _ _ (fun c hc => by
        have : c = '.' := by simpa using hc.symm
        rw [this]; decide)]
  have htake2 : (fs ++ (w ++ U)).takeWhile isDigit = fs := by
    rw [takeWhile_append_of_all _ _ _ hfs, takeWhile_of_head _ _ hhead]
    simp
  have hdrop2 : (fs ++ (w ++ U)).dropWhile isDigit = w ++ U := by
    rw [dropWhile_append_of_all _ _ _ hfs, dropWhile_of_head _ _ hhead]
  have hdw : (w ++ U).dropWhile isReSpace = U := by
    rw [dropWhile_append_of_all _ _ _ hw, dropWhile_of_head _ _ (fun c hc => (hUh c hc).1)]
  have hemp : ds.isEmpty = false := by
    cases ds with
    | nil => exact absurd rfl hne
    | cons x t => rfl
  have hfemp : fs.isEmpty = false := by
    cases fs with
    | nil => exact absurd rfl hfne
    | cons x t => rfl
  unfold FindStringSubmatch
  rw [hassoc, htake, hdrop]
  simp only [hemp, Bool.false_eq_true, if_false, htake2, hdrop2, hfemp, beq_self_eq_true,
    Bool.not_false, Bool.and_self, if_true, hdw, hU]

/-- Every string of the form of the specification is matched by the pattern. -/
theorem findStringSubmatch_of_sizeForm (s : List Char) (h : sizeForm s) :
    FindStringSubmatch s ≠ none := by
  obtain ⟨ds, fr, ws, k, b, hs, hne, hds, hfr, hws, hk, hb⟩ := h
  obtain ⟨hU, hUh⟩ := unit_form_ok k b hk hb
  rcases hfr with hfr | ⟨fs, hfne, hfs, hfr⟩
  · have := findStringSubmatch_digits ds ws (k ++ b) hne hds hws hU hUh
    rw [hs, hfr, List.append_nil, List.append_assoc (ds ++ ws), this]
    simp
  · have := findStringSubmatch_fraction ds fs ws (k ++ b) hne hds hfne hfs hws hU hUh
    rw [hs, hfr, List.append_assoc (ds ++ '.' :: fs ++ ws), this]
    simp

/-- C9. `ParseSize` returns the value 0 and an error for every input that, after
upper-casing and trimming of the surrounding white space, is not of the form: digits, an
optional point followed by digits, optional white space, an optional one of K, M, G, T
and an optional B. -/
theorem C9_ParseSize_rejects_malformed (up : Char → Char) (pf : Platform) (s : List Char)
    (h : ¬ sizeForm (TrimSpace (ToUpper up s))) :
    ∃ msg, ParseSize up pf s = (0, some msg) := by
  have hnone : FindStringSubmatch (TrimSpace (ToUpper up s)) = none := by
    cases hf : FindStringSubmatch (TrimSpace (ToUpper up s)) with
    | none => rfl
    | some p => exact absurd (sizeForm_of_findStringSubmatch _ p hf) h
  unfold ParseSize
  simp only [hnone]
  exact ⟨_, rfl⟩

/-- C9, the examples of the specification: `abc`, `-1GB` and `1XB` are rejected. -/
theorem C9_ParseSize_rejects_malformed_witness :
    (∃ msg, ParseSize id amd64 ['a', 'b', 'c'] = (0, some msg)) ∧
    (∃ msg, ParseSize id amd64 ['-', '1', 'G', 'B'] = (0, some msg)) ∧
    (∃ msg, ParseSize id amd64 ['1', 'X', 'B'] = (0, some msg)) :=
  ⟨C9_ParseSize_rejects_malformed id amd64 ['a', 'b', 'c']
      (fun hf => findStringSubmatch_of_sizeForm _ hf (by decide)),
    C9_ParseSize_rejects_malformed id amd64 ['-', '1', 'G', 'B']
      (fun hf => findStringSubmatch_of_sizeForm _ hf (by decide)),
    C9_ParseSize_rejects_malformed id amd64 ['1', 'X', 'B']
      (fun hf => findStringSubmatch_of_sizeForm _ hf (by decide))⟩

/-! ### `FormatBytes` -/

/-- The loop of `FormatBytes`: started at `n` in `[1024^j, 1024^(j+1))` it multiplies
`div` by `1024^j` and adds `j` to `exp`. -/
theorem formatLoop_spec : ∀ (j : Nat) (n d : Int) (e : Nat),
    (1024 : Int) ^ j ≤ n → n < (1024 : Int) ^ (j + 1) → 0 < d → d * (1024 : Int) ^ j < 2 ^ 63 →
    formatLoop n d e = (d * (1024 : Int) ^ j, e + j) := by
  intro j
  induction j with
  | zero =>
    intro n d e hlo hhi _ _
    rw [formatLoop, if_neg (by simpa using hhi)]
    simp
  | succ j ih =>
    intro n d e hlo hhi hd hfit
    have hpow : (0 : Int) < (1024 : Int) ^ j := by positivity
    have h1024 : (1024 : Int) ≤ n := by
      have : (1024 : Int) ^ (j + 1) = 1024 ^ j * 1024 := pow_succ _ _
      nlinarith
    have hn0 : (0 : Int) ≤ n := by omega
    have hdiv : Int.tdiv n 1024 = n / 1024 := Int.tdiv_eq_ediv hn0 (by norm_num)
    have hlo' : (1024 : Int) ^ j ≤ n / 1024 := by
      rw [Int.le_ediv_iff_mul_le (by norm_num)]
      rw [pow_succ] at hlo
      exact hlo
    have hhi' : n / 1024 < (1024 : Int) ^ (j + 1) := by
      rw [Int.ediv_lt_iff_lt_mul (by norm_num)]
      rw [pow_succ (1024 : Int) (j + 1)] at hhi
      exact hhi
    have hd' : d * 1024 * (1024 : Int) ^ j < 2 ^ 63 := by
      rw [pow_succ] at hfit
      calc d * 1024 * (1024 : Int) ^ j = d * ((1024 : Int) ^ j * 1024) := by ring
        _ < 2 ^ 63 := hfit
    have hwrap : wrap64 (d * 1024) = d * 1024 := by
      apply wrap64_of_inInt64
      unfold inInt64
      constructor
      · nlinarith
      · nlinarith
    rw [formatLoop, if_pos h1024, hdiv, hwrap, ih (n / 1024) (d * 1024) (e + 1) hlo' hhi'
      (by omega) hd']
    rw [pow_succ]
    refine Prod.ext ?_ ?_
    · simp only
      ring
    · simp only
      omega

/-- Rounding to the nearest integer moves a value by at most one half. -/
theorem roundHalfEven_near (x : ℚ) : |(roundHalfEven x : ℚ) - x| ≤ 1 / 2 := by
  have h1 := Int.floor_le x
  have h2 := Int.lt_floor_add_one x
  unfold roundHalfEven
  simp only
  split_ifs with c1 c2 c3
  · rw [abs_le]; constructor <;> linarith
  · rw [abs_le]; push_cast; constructor <;> linarith
  · rw [abs_le]; constructor <;> linarith
  · rw [abs_le]; push_cast; constructor <;> linarith

/-- The nearest integer of a non-negative value is not negative. -/
theorem roundHalfEven_nonneg (x : ℚ) (hx : 0 ≤ x) : 0 ≤ roundHalfEven x := by
  have h0 : 0 ≤ ⌊x⌋ := Int.floor_nonneg.mpr hx
  unfold roundHalfEven
  simp only
  split_ifs <;> omega

/-- The two-decimal rendering of a non-negative value: the integer part, a point and
two digits, denoting a hundredth nearest to the value. -/
theorem fmtFloat2_nonneg (q : ℚ) (hq : 0 ≤ q) :
    ∃ h : Nat, |(h : ℚ) / 100 - q| ≤ 1 / 200 ∧
      fmtFloat2 q = toString (h / 100) ++ "." ++ toString (h % 100 / 10) ++ toString (h % 10) := by
  refine ⟨(roundHalfEven (|q| * 100)).toNat, ?_, ?_⟩
  · rw [abs_of_nonneg hq]
    have hnn := roundHalfEven_nonneg (q * 100) (by positivity)
    have hcast : (((roundHalfEven (q * 100)).toNat : Nat) : ℚ) = (roundHalfEven (q * 100) : ℚ) := by
      have : (((roundHalfEven (q * 100)).toNat : Nat) : Int) = roundHalfEven (q * 100) :=
        Int.toNat_of_nonneg hnn
      exact_mod_cast this
    rw [hcast]
    have hnear := roundHalfEven_near (q * 100)
    rw [abs_le] at hnear ⊢
    constructor <;> linarith [hnear.1, hnear.2]
  · unfold fmtFloat2
    simp only
    rw [if_neg (not_lt.mpr hq)]

/-- The quotient `float64(n) / float64(1024^k)` is exact below `2^53`. -/
theorem divF64_exact (n k : Nat) (hn : n < 2 ^ 53) (hk : k ≤ 5) :
    divF64 (float64OfInt (n : Int)) (float64OfInt ((1024 : Int) ^ k)) =
      (n : ℚ) / (1024 : ℚ) ^ k := by
  have hpow : (1024 : Nat) ^ k < 2 ^ 53 := by
    calc (1024 : Nat) ^ k ≤ 1024 ^ 5 := Nat.pow_le_pow_right (by norm_num) hk
      _ < 2 ^ 53 := by norm_num
  have h1 : float64OfInt (n : Int) = (n : ℚ) := float64OfInt_natCast n hn
  have h2 : float64OfInt ((1024 : Int) ^ k) = (1024 : ℚ) ^ k := by
    have := float64OfInt_natCast ((1024 : Nat) ^ k) hpow
    rw [show (((1024 : Nat) ^ k : Nat) : Int) = (1024 : Int) ^ k by push_cast; rfl] at this
    rw [this]
    push_cast
    rfl
  have h3 : (n : ℚ) / (1024 : ℚ) ^ k = ((n : Int) : ℚ) * (2 : ℚ) ^ (-(10 * k : Nat) : Int) := by
    rw [zpow_neg, zpow_natCast, pow_mul]
    norm_num
    rfl
  unfold divF64
  rw [h1, h2, h3]
  exact roundF64_exact (n : Int) _ (by
    rw [abs_of_nonneg (by positivity)]
    exact_mod_cast hn) (by omega)

/-- The decimal numeral of a non-negative `int` is that of the natural number. -/
theorem toString_natCast_int (n : Nat) : toString ((n : Nat) : Int) = toString n := rfl

/-- The entries of the table `units`. -/
theorem units_lookup (j : Nat) (hj : j < 4) : units[j]? = some (unitOfTier (j + 1)) := by
  interval_cases j <;> rfl

/-- The state of the loop of `FormatBytes` when it ends, for a byte count in
`[1024^(j+1), 1024^(j+2))` below `1024^5`. -/
theorem formatLoop_bytes (n j : Nat) (hlo : 1024 ^ (j + 1) ≤ n) (hhi : n < 1024 ^ (j + 2))
    (hj : j < 4) :
    formatLoop (Int.tdiv (n : Int) 1024) 1024 0 = ((1024 : Int) ^ (j + 1), j) := by
  have hdiv : Int.tdiv (n : Int) 1024 = ((n / 1024 : Nat) : Int) := by
    rw [Int.tdiv_eq_ediv (by positivity) (by norm_num)]
    push_cast
    rfl
  have hlo' : 1024 ^ j ≤ n / 1024 := by
    rw [Nat.le_div_iff_mul_le (by norm_num)]
    rw [pow_succ] at hlo
    exact hlo
  have hhi' : n / 1024 < 1024 ^ (j + 1) := by
    rw [Nat.div_lt_iff_lt_mul (by norm_num)]
    rw [pow_succ 1024 (j + 1)] at hhi
    exact hhi
  have hfit : (1024 : Int) * (1024 : Int) ^ j < 2 ^ 63 := by
    have h1 : (1024 : Int) ^ j ≤ 1024 ^ 3 := pow_le_pow_right₀ (by norm_num) (by omega)
    calc (1024 : Int) * (1024 : Int) ^ j ≤ 1024 * 1024 ^ 3 := by linarith
      _ < 2 ^ 63 := by norm_num
  rw [hdiv, formatLoop_spec j ((n / 1024 : Nat) : Int) 1024 0 (by exact_mod_cast hlo')
    (by exact_mod_cast hhi') (by norm_num) hfit]
  refine Prod.ext ?_ ?_
  · simp only
    rw [pow_succ]
    ring
  · simp

/-- C10. For every byte count `n` below 1024, `FormatBytes(n)` is the decimal numeral
of `n` followed by ` B`.  For every `n` with `1024^k ≤ n < 1024^(k+1)`, `k ≥ 1` and
`n < 1024^5`, it is `n / 1024^k` rendered with two decimal places (the integer part, a
point and two digits, denoting a hundredth nearest to the quotient), a space and the
`k`-th unit of KB, MB, GB, TB. -/
theorem C10_FormatBytes_renders (n : Nat) :
    (n < 1024 → FormatBytes (n : Int) = .ok (toString n ++ " B")) ∧
    (∀ k : Nat, 1 ≤ k → 1024 ^ k ≤ n → n < 1024 ^ (k + 1) → n < 1024 ^ 5 →
      FormatBytes (n : Int) =
        .ok (fmtFloat2 ((n : ℚ) / (1024 : ℚ) ^ k) ++ " " ++ unitOfTier k) ∧
      ∃ h : Nat, |(h : ℚ) / 100 - (n : ℚ) / (1024 : ℚ) ^ k| ≤ 1 / 200 ∧
        fmtFloat2 ((n : ℚ) / (1024 : ℚ) ^ k) =
          toString (h / 100) ++ "." ++ toString (h % 100 / 10) ++ toString (h % 10)) := by
  constructor
  · intro hn
    have hlt : ((n : Nat) : Int) < 1024 := by exact_mod_cast hn
    unfold FormatBytes
    rw [if_pos hlt, toString_natCast_int]
  · intro k hk hlo hhi h5
    obtain ⟨j, rfl⟩ : ∃ j, k = j + 1 := ⟨k - 1, by omega⟩
    have hj : j < 4 := by
      by_contra hcon
      have h1 : 1024 ^ 5 ≤ 1024 ^ (j + 1) := Nat.pow_le_pow_right (by norm_num) (by omega)
      omega
    have hge : ¬ (((n : Nat) : Int) < 1024) := by
      have h1 : 1024 ^ 1 ≤ 1024 ^ (j + 1) := Nat.pow_le_pow_right (by norm_num) (by omega)
      have h2 : 1024 ≤ n := by omega
      have h3 : (1024 : Int) ≤ (n : Int) := by exact_mod_cast h2
      omega
    have hn53 : n < 2 ^ 53 := lt_trans h5 (by norm_num)
    refine ⟨?_, fmtFloat2_nonneg _ (by positivity)⟩
    unfold FormatBytes
    rw [if_neg hge]
    simp only [formatLoop_bytes n j hlo hhi hj, units_lookup j hj,
      divF64_exact n (j + 1) hn53 (by omega)]

/-- C10, at 100 bytes and at 1536 bytes: `100 B` and `1.50 KB`. -/
theorem C10_FormatBytes_renders_witness :
    FormatBytes 100 = .ok "100 B" ∧ FormatBytes 1536 = .ok "1.50 KB" := by
  have h1 := (C10_FormatBytes_renders 100).1 (by norm_num)
  have h2 := ((C10_FormatBytes_renders 1536).2 1 (by norm_num) (by norm_num) (by norm_num)
    (by norm_num)).1
  have hfmt : fmtFloat2 (((1536 : Nat) : ℚ) / (1024 : ℚ) ^ 1) = "1.50" := by
    have hq : ((1536 : Nat) : ℚ) / (1024 : ℚ) ^ 1 = 3 / 2 := by norm_num
    have hr : roundHalfEven (|(3 / 2 : ℚ)| * 100) = 150 := by
      have : |(3 / 2 : ℚ)| * 100 = ((150 : Int) : ℚ) := by
        rw [abs_of_pos (by norm_num)]
        norm_num
      rw [this, roundHalfEven_intCast]
    unfold fmtFloat2
    simp only [hq, hr]
    rw [if_neg (by norm_num)]
    decide
  rw [hfmt] at h2
  exact ⟨h1, h2⟩

/-! ### The index into the unit table -/

/-- The counter of the loop of `FormatBytes`: started at `n` in `[1024^j, 1024^(j+1))`
it is raised by `j`, whatever happens to `div`. -/
theorem formatLoop_exp : ∀ (j : Nat) (n d : Int) (e : Nat),
    (1024 : Int) ^ j ≤ n → n < (1024 : Int) ^ (j + 1) → (formatLoop n d e).2 = e + j := by
  intro j
  induction j with
  | zero =>
    intro n d e _ hhi
    rw [formatLoop, if_neg (by simpa using hhi)]
    simp
  | succ j ih =>
    intro n d e hlo hhi
    have hpow : (0 : Int) < (1024 : Int) ^ j := by positivity
    have h1024 : (1024 : Int) ≤ n := by
      have : (1024 : Int) ^ (j + 1) = 1024 ^ j * 1024 := pow_succ _ _
      nlinarith
    have hn0 : (0 : Int) ≤ n := by omega
    have hdiv : Int.tdiv n 1024 = n / 1024 := Int.tdiv_eq_ediv hn0 (by norm_num)
    have hlo' : (1024 : Int) ^ j ≤ n / 1024 := by
      rw [Int.le_ediv_iff_mul_le (by norm_num)]
      rw [pow_succ] at hlo
      exact hlo
    have hhi' : n / 1024 < (1024 : Int) ^ (j + 1) := by
      rw [Int.ediv_lt_iff_lt_mul (by norm_num)]
      rw [pow_succ (1024 : Int) (j + 1)] at hhi
      exact hhi
    rw [formatLoop, if_pos h1024, hdiv, ih (n / 1024) (wrap64 (d * 1024)) (e + 1) hlo' hhi']
    omega

/-- The quotient `bytes / unit` that starts the loop, for a byte count `n` with
`1024^(j+1) ≤ n < 1024^(j+2)`. -/
theorem tdiv_1024_bounds (n j : Nat) (hlo : 1024 ^ (j + 1) ≤ n) (hhi : n < 1024 ^ (j + 2)) :
    (1024 : Int) ^ j ≤ Int.tdiv (n : Int) 1024 ∧
    Int.tdiv (n : Int) 1024 < (1024 : Int) ^ (j + 1) := by
  have hdiv : Int.tdiv (n : Int) 1024 = ((n / 1024 : Nat) : Int) := by
    rw [Int.tdiv_eq_ediv (by positivity) (by norm_num)]
    push_cast
    rfl
  have hlo' : 1024 ^ j ≤ n / 1024 := by
    rw [Nat.le_div_iff_mul_le (by norm_num)]
    rw [pow_succ] at hlo
    exact hlo
  have hhi' : n / 1024 < 1024 ^ (j + 1) := by
    rw [Nat.div_lt_iff_lt_mul (by norm_num)]
    rw [pow_succ 1024 (j + 1)] at hhi
    exact hhi
  rw [hdiv]
  exact ⟨by exact_mod_cast hlo', by exact_mod_cast hhi'⟩

/-- The index with which `FormatBytes` reads the unit table, for a byte count
`n ≥ 1024`: one less than the integer part of the logarithm of `n` in base 1024. -/
theorem formatLoop_index (n : Nat) (h : 1024 ≤ n) :
    (formatLoop (Int.tdiv (n : Int) 1024) 1024 0).2 = Nat.log 1024 n - 1 := by
  have hpos : 0 < Nat.log 1024 n := Nat.log_pos (by norm_num) h
  obtain ⟨j, hj⟩ : ∃ j, Nat.log 1024 n = j + 1 := ⟨Nat.log 1024 n - 1, by omega⟩
  have hlo : 1024 ^ (j + 1) ≤ n := by
    rw [← hj]
    exact Nat.pow_log_le_self 1024 (by omega)
  have hhi : n < 1024 ^ (j + 2) := by
    have := Nat.lt_pow_succ_log_self (b := 1024) (by norm_num) n
    rw [hj] at this
    exact this
  obtain ⟨h1, h2⟩ := tdiv_1024_bounds n j hlo hhi
  rw [formatLoop_exp j _ 1024 0 h1 h2, hj]
  omega

/-- In the whole range of `int` the multiplication `div *= unit` of the loop of
`FormatBytes` does not overflow: for `1024 ≤ n < 2^63` the loop ends with `div` the
largest power of 1024 that does not exceed `n`. -/
theorem formatLoop_div (n : Nat) (h : 1024 ≤ n) (h63 : n < 2 ^ 63) :
    (formatLoop (Int.tdiv (n : Int) 1024) 1024 0).1 = (1024 : Int) ^ Nat.log 1024 n := by
  have hpos : 0 < Nat.log 1024 n := Nat.log_pos (by norm_num) h
  obtain ⟨j, hj⟩ : ∃ j, Nat.log 1024 n = j + 1 := ⟨Nat.log 1024 n - 1, by omega⟩
  have hlo : 1024 ^ (j + 1) ≤ n := by
    rw [← hj]
    exact Nat.pow_log_le_self 1024 (by omega)
  have hhi : n < 1024 ^ (j + 2) := by
    have := Nat.lt_pow_succ_log_self (b := 1024) (by norm_num) n
    rw [hj] at this
    exact this
  obtain ⟨h1, h2⟩ := tdiv_1024_bounds n j hlo hhi
  have hj5 : j ≤ 5 := by
    by_contra hcon
    have h7 : 1024 ^ 7 ≤ 1024 ^ (j + 1) := Nat.pow_le_pow_right (by norm_num) (by omega)
    have : (2 : Nat) ^ 63 < 1024 ^ 7 := by norm_num
    omega
  have hfit : (1024 : Int) * (1024 : Int) ^ j < 2 ^ 63 := by
    have hle : (1024 : Int) ^ j ≤ 1024 ^ 5 := pow_le_pow_right₀ (by norm_num) hj5
    calc (1024 : Int) * (1024 : Int) ^ j ≤ 1024 * 1024 ^ 5 := by linarith
      _ < 2 ^ 63 := by norm_num
  rw [formatLoop_spec j _ 1024 0 h1 h2 (by norm_num) hfit, hj, pow_succ]
  simp only
  ring

/-- A byte count is below `1024^5` exactly when the index is below 4. -/
theorem index_lt_four_iff (n : Nat) (h : 1024 ≤ n) :
    Nat.log 1024 n - 1 < 4 ↔ n < 1024 ^ 5 := by
  have hpos : 0 < Nat.log 1024 n := Nat.log_pos (by norm_num) h
  rw [Nat.lt_pow_iff_log_lt (by norm_num) (by omega)]
  omega

/-- The result of `ParseSize` from the results of its steps: the submatch of the
pattern, the parsed number, the multiplier of the unit and the converted product. -/
theorem ParseSize_of_steps (up : Char → Char) (pf : Platform) (s ds U : List Char)
    (q : ℚ) (m v : Int)
    (hsub : FindStringSubmatch (TrimSpace (ToUpper up s)) = some (ds, U))
    (hpf : ParseFloat ds = some q) (hmul : unitMultiplier U = some m)
    (hval : truncToInt64 pf (mulF64 q (float64OfInt m)) = v) :
    ParseSize up pf s = (v, none) := by
  unfold ParseSize
  simp only [hsub, hpf, hmul, hval]

/-- The size `1024TB` is accepted by `ParseSize`, with the value `1024^5`. -/
theorem ParseSize_1024TB :
    ParseSize id amd64 ['1', '0', '2', '4', 'T', 'B'] = (1125899906842624, none) := by
  have hsub : FindStringSubmatch (TrimSpace (ToUpper id ['1', '0', '2', '4', 'T', 'B'])) =
      some (['1', '0', '2', '4'], ['T', 'B']) := by decide
  have hpf : ParseFloat ['1', '0', '2', '4'] = some (1024 : ℚ) := by
    have h := parseFloat_digits ['1', '0', '2', '4'] (by decide) (by decide) (by decide)
    rw [h]
    have : decimalNat ['1', '0', '2', '4'] = 1024 := by decide
    rw [this]
    norm_num
  have hmul : unitMultiplier ['T', 'B'] = some (1024 * 1024 * 1024 * 1024) := by decide
  have hconv : float64OfInt (1024 * 1024 * 1024 * 1024) = ((1099511627776 : Int) : ℚ) := by
    unfold float64OfInt
    rw [show ((1024 * 1024 * 1024 * 1024 : Int)) = 1099511627776 by norm_num]
    exact roundF64_intCast 1099511627776 (by rw [abs_of_nonneg (by norm_num)]; norm_num)
  have hprod : mulF64 (1024 : ℚ) ((1099511627776 : Int) : ℚ) =
      ((1125899906842624 : Int) : ℚ) := by
    unfold mulF64
    rw [show (1024 : ℚ) * ((1099511627776 : Int) : ℚ) = ((1125899906842624 : Int) : ℚ) by
      norm_num]
    exact roundF64_intCast 1125899906842624 (by rw [abs_of_nonneg (by norm_num)]; norm_num)
  have hval : truncToInt64 amd64 (mulF64 (1024 : ℚ)
      (float64OfInt (1024 * 1024 * 1024 * 1024))) = 1125899906842624 := by
    rw [hconv, hprod]
    exact truncToInt64_intCast amd64 1125899906842624 (by decide)
  exact ParseSize_of_steps id amd64 _ _ _ _ _ _ hsub hpf hmul hval

/-- For the target `1024^5` without override, `main` computes `actualSize = 1024^5`,
above `maxInMemorySize`. -/
theorem actualSize_1024TB :
    CalculateParameters 1125899906842624 0 = (4398046511104, 256) ∧
    actualSize 1125899906842624 0 = 1125899906842624 ∧
    actualSize 1125899906842624 0 > maxInMemorySize := by
  decide

/-- C11. For every byte count `n ≥ 1024`, the index `exp` with which the loop of
`FormatBytes` ends is `floor(log_1024(n)) - 1`, with `floor(log_1024(n))` the largest `k`
such that `1024^k ≤ n`; the lookup `units[exp]` in the table of
the four units KB, MB, GB, TB is within bounds if and only if `n < 1024^5`, and
`FormatBytes(n)` returns a string if and only if `n < 1024^5`; for every `n ≥ 1024^5`
the index is at least 4, the lookup is out of range and `FormatBytes(n)` stops with a
run-time panic, returning no string. -/
theorem C11_FormatBytes_index_out_of_range (n : Nat) (h : 1024 ≤ n) :
    (((formatLoop (Int.tdiv (n : Int) 1024) 1024 0).2 : Nat) : Int) =
      ⌊Real.logb 1024 (n : ℝ)⌋ - 1 ∧
    (formatLoop (Int.tdiv (n : Int) 1024) 1024 0).2 + 1 = Nat.log 1024 n ∧
    ((formatLoop (Int.tdiv (n : Int) 1024) 1024 0).2 < units.length ↔ n < 1024 ^ 5) ∧
    ((∃ s, FormatBytes (n : Int) = .ok s) ↔ n < 1024 ^ 5) ∧
    (1024 ^ 5 ≤ n →
      4 ≤ (formatLoop (Int.tdiv (n : Int) 1024) 1024 0).2 ∧
      units[(formatLoop (Int.tdiv (n : Int) 1024) 1024 0).2]? = none ∧
      ∃ msg, FormatBytes (n : Int) = .panic msg) := by
  have hidx := formatLoop_index n h
  have hiff := index_lt_four_iff n h
  have hlen : units.length = 4 := rfl
  have hge : ¬ (((n : Nat) : Int) < 1024) := by
    have h3 : (1024 : Int) ≤ (n : Int) := by exact_mod_cast h
    omega
  have hlogb : ((Nat.log 1024 n : Int) = ⌊Real.logb 1024 (n : ℝ)⌋) := by
    have h1 := Real.floor_logb_natCast (b := 1024) (r := (n : ℝ)) (by positivity)
    rw [Int.log_natCast] at h1
    rw [← h1]
    norm_num
  have hpanic : 1024 ^ 5 ≤ n →
      4 ≤ (formatLoop (Int.tdiv (n : Int) 1024) 1024 0).2 ∧
      units[(formatLoop (Int.tdiv (n : Int) 1024) 1024 0).2]? = none ∧
      ∃ msg, FormatBytes (n : Int) = .panic msg := by
    intro h5
    have h4 : 4 ≤ (formatLoop (Int.tdiv (n : Int) 1024) 1024 0).2 := by
      rw [hidx]
      by_contra hcon
      exact absurd (hiff.mp (by omega)) (by omega)
    have hnone : units[(formatLoop (Int.tdiv (n : Int) 1024) 1024 0).2]? = none :=
      List.getElem?_eq_none (by rw [hlen]; exact h4)
    refine ⟨h4, hnone, "index out of range", ?_⟩
    unfold FormatBytes
    rw [if_neg hge]
    simp only [hnone]
  have hpos : 0 < Nat.log 1024 n := Nat.log_pos (by norm_num) h
  refine ⟨?_, ?_, ?_, ?_, hpanic⟩
  · rw [← hlogb, hidx]
    omega
  · rw [hidx]
    omega
  · rw [hidx, hlen]
    exact hiff
  · constructor
    · rintro ⟨s, hs⟩
      by_contra hcon
      obtain ⟨_, _, msg, hmsg⟩ := hpanic (by omega)
      rw [hmsg] at hs
      exact absurd hs (by simp)
    · intro h5
      have hlt : (formatLoop (Int.tdiv (n : Int) 1024) 1024 0).2 < units.length := by
        rw [hidx, hlen]
        exact hiff.mpr h5
      have hsome : units[(formatLoop (Int.tdiv (n : Int) 1024) 1024 0).2]? =
          some (units.get ⟨_, hlt⟩) := List.getElem?_eq_getElem hlt
      unfold FormatBytes
      rw [if_neg hge]
      simp only [hsome]
      exact ⟨_, rfl⟩

/-- C11, at the size `1024TB`: `ParseSize` returns `1024^5`, for which `main` computes
`actualSize = 1024^5`, above the limit, and formats it; the index is 4 and
`FormatBytes` stops with a panic. -/
theorem C11_FormatBytes_1024TB :
    ParseSize id amd64 ['1', '0', '2', '4', 'T', 'B'] = (1125899906842624, none) ∧
    (1125899906842624 : Nat) = 1024 ^ 5 ∧
    (formatLoop (Int.tdiv 1125899906842624 1024) 1024 0).2 = 4 ∧
    (∃ msg, FormatBytes 1125899906842624 = .panic msg) ∧
    (∃ msg, sizeLimitMessage 1125899906842624 0 = some (.panic msg)) := by
  have h := C11_FormatBytes_index_out_of_range 1125899906842624 (by norm_num)
  have hlog : Nat.log 1024 1125899906842624 = 5 :=
    Nat.log_eq_of_pow_le_of_lt_pow (by norm_num) (by norm_num)
  obtain ⟨_, hidx, _, _, hp⟩ := h
  obtain ⟨_, _, msg, hmsg⟩ := hp (by norm_num)
  have key : ∀ x L : Nat, x + 1 = L → L = 5 → x = 4 := fun x L h1 h2 => by omega
  have hx := key _ _ hidx hlog
  refine ⟨ParseSize_1024TB, by norm_num, hx, ⟨msg, hmsg⟩, msg, ?_⟩
  unfold sizeLimitMessage
  rw [if_pos actualSize_1024TB.2.2, actualSize_1024TB.2.1]
  exact congrArg some hmsg

end TreePIR
